import Mathlib

/-!
# Chunk send order: the ordering table and the neighbourhood query

A shallow embedding of `code_generators/code/chunk_send_order.js`, followed by
embeddings of the generator classes of `generator_lib.js` and of `testAlgorhitm`
and the rotate-xor hashes of `hash_algorhitm.js`.  The definitions of the three parts come first, the
theorems after them.

The script computes, from the constant `maxRenderDistance`, the tables
`OFFSETS` and `GROUPS`, and emits the Rust function `get_chunks_to_load`
that walks them.  Here the constant is a parameter `m : Nat`
(the script fixes it to 16), the tables are the lists the script builds,
and the emitted function is a function on these lists.

Numbers: the script works on JavaScript numbers that are small integers, and
the emitted Rust on `u8`, `i8` and `i32`.  The tables are studied for every `m`,
so their entries are `Nat` and `Int` without a width.  The coordinates of a
`ChunkPosition` are `i32` values: integers with a proof of the bounds.  The
additions `offset.x + (*x as i32)` and `offset.z + (*z as i32)` of the emitted
code can leave `i32`; what happens then depends on the build, so the query takes
a parameter `overflowChecks`: with it the addition panics
(`QueryError.addOverflow`), without it the sum wraps.  The one subtraction of the
emitted code that can go below zero, `counter -= 1`, is a checked step that fails
with `QueryError.counterUnderflow`.
-/

namespace ChunkSendOrder

/-! ## Helpers of the script -/

/-- Generator `range(min, max)`: the numbers `min, min + 1, ..., max`
(`for (var i = min; i <= max; i++) yield i`), empty when `max < min`. -/
def range (min max : Int) : List Int :=
  (List.range (max + 1 - min).toNat).map (fun (k : Nat) => min + (k : Int))

/-- Function `lengthSquared(vec)` on a two-element vector:
`vec.reduce((r, x) => r + x * x, 0)`. -/
def lengthSquared (vec : Int × Int) : Int :=
  (0 + vec.1 * vec.1) + vec.2 * vec.2

/-- Expression `Math.max(Math.abs(x), Math.abs(z))`, the `distance` of an offset. -/
def chebyshev (vec : Int × Int) : Nat :=
  max vec.1.natAbs vec.2.natAbs

/-- Comparator of the sort, `(a, b) => lengthSquared(a) - lengthSquared(b)`,
read as "a is not placed after b": the difference is not positive. -/
def sortLE (a b : Int × Int) : Prop :=
  lengthSquared a - lengthSquared b ≤ 0

instance : DecidableRel sortLE :=
  fun a b => inferInstanceAs (Decidable (lengthSquared a - lengthSquared b ≤ 0))

/-- The sequence `flat(map(range(-m, m), x => map(range(-m, m), z => [x, z])))`:
`x` ascending in the outer loop, `z` ascending in the inner one. -/
def generated (m : Nat) : List (Int × Int) :=
  (range (-(m : Int)) m).flatMap (fun x => (range (-(m : Int)) m).map (fun z => (x, z)))

/-- The generated sequence after `.sort(...)`.  `Array.prototype.sort` is a
stable sort; it is embedded as the stable insertion sort. -/
def sortedVecs (m : Nat) : List (Int × Int) :=
  (generated m).insertionSort sortLE

/-- An element of `offsets`: `{ x, z, distance }`. -/
structure Offset where
  x : Int
  z : Int
  distance : Nat
deriving DecidableEq, Repr

/-- Function `([x, z]) => ({ x, z, distance: Math.max(Math.abs(x), Math.abs(z)) })`. -/
def toOffset (v : Int × Int) : Offset :=
  { x := v.1, z := v.2, distance := chebyshev v }

/-- Constant `offsets`. -/
def offsets (m : Nat) : List Offset :=
  (sortedVecs m).map toOffset

/-- Type `OffsetGroup`: `{ distance, i, offsets }`. -/
structure OffsetGroup where
  distance : Nat
  i : Nat
  offsets : List (Int × Int)
deriving DecidableEq, Repr

/-- State of the grouping loop: `grouped_offsets`, `distance_group_counts`
and the local `group`. -/
structure GroupState where
  grouped_offsets : List OffsetGroup
  distance_group_counts : List Nat
  group : OffsetGroup
deriving DecidableEq, Repr

/-- State before the loop: `grouped_offsets = []`,
`distance_group_counts = new Array(m + 1).fill(0)` with
`distance_group_counts[0]++` applied, `group = { distance: 0, i: 0, offsets: [] }`. -/
def groupInit (m : Nat) : GroupState :=
  { grouped_offsets := []
    distance_group_counts :=
      (List.replicate (m + 1) 0).set 0 ((List.replicate (m + 1) 0).getD 0 0 + 1)
    group := { distance := 0, i := 0, offsets := [] } }

/-- One iteration of `for (let { x, z, distance } of offsets)`. -/
def groupStep (s : GroupState) (o : Offset) : GroupState :=
  if s.group.distance = o.distance then
    { s with group := { s.group with offsets := s.group.offsets ++ [(o.x, o.z)] } }
  else
    { grouped_offsets := s.grouped_offsets ++ [s.group]
      distance_group_counts :=
        s.distance_group_counts.set o.distance (s.distance_group_counts.getD o.distance 0 + 1)
      group :=
        { distance := o.distance
          i := s.distance_group_counts.getD o.distance 0
          offsets := [(o.x, o.z)] } }

/-- State after the loop has run over all of `offsets`. -/
def groupLoop (m : Nat) : GroupState :=
  (offsets m).foldl groupStep (groupInit m)

/-- Constant `grouped_offsets` after the final `grouped_offsets.push(group)`. -/
def grouped_offsets (m : Nat) : List OffsetGroup :=
  (groupLoop m).grouped_offsets ++ [(groupLoop m).group]

/-- Constant `distance_group_counts` after the loop. -/
def distance_group_counts (m : Nat) : List Nat :=
  (groupLoop m).distance_group_counts

/-! ## The emitted tables and query -/

/-- Emitted table `OFFSETS`: one `(distance, &OFFSETS_Dd_i)` per group. -/
def OFFSETS (m : Nat) : List (Nat × List (Int × Int)) :=
  (grouped_offsets m).map (fun g => (g.distance, g.offsets))

/-- Emitted table `GROUPS`. -/
def GROUPS (m : Nat) : List Nat :=
  distance_group_counts m

/-- The values of the type `i32`. -/
def inI32 (v : Int) : Prop :=
  -2147483648 ≤ v ∧ v ≤ 2147483647

instance (v : Int) : Decidable (inI32 v) :=
  inferInstanceAs (Decidable (-2147483648 ≤ v ∧ v ≤ 2147483647))

/-- The value of type `i32` that a wrapping operation gives for the integer `v`. -/
def wrapI32 (v : Int) : Int :=
  (v + 2147483648) % 4294967296 - 2147483648

/-- Modelled from the spec: the type `ChunkPosition` of the server, which is not
among these sources; a cell of the grid with the coordinates `x` and `z`, built by
`ChunkPosition::new(x, z)`.  The emitted code adds `i32` values to `offset.x` and
`offset.z`, so the coordinates are of type `i32`. -/
structure ChunkPosition where
  x : Int
  z : Int
  x_i32 : inI32 x
  z_i32 : inI32 z
deriving DecidableEq

/-- The ways `get_chunks_to_load` can stop without a result: the failed `assert!`,
an index outside `GROUPS`, the subtraction `counter -= 1` below zero, and an
addition of `i32` values outside `i32` in a build that checks for overflow. -/
inductive QueryError where
  | renderDistanceTooLarge
  | indexOutOfBounds
  | counterUnderflow
  | addOverflow
deriving DecidableEq, Repr

/-- Addition `a + b` of two `i32` values.  When the sum is outside `i32`, a build
with overflow checks (the debug profile) panics, and a build without them (the
release profile) wraps. -/
def addI32 (overflowChecks : Bool) (a b : Int) : Except QueryError { v : Int // inI32 v } :=
  if h : inI32 (a + b) then .ok ⟨a + b, h⟩
  else if overflowChecks then .error .addOverflow
  else .ok ⟨wrapI32 (a + b), by unfold wrapI32 inI32; omega⟩

/-- Inner loop `for (x, z) in *off`: pushes
`ChunkPosition::new(offset.x + (*x as i32), offset.z + (*z as i32))` unless it is
loaded. -/
def pushChunks (overflowChecks : Bool) (offset : ChunkPosition)
    (loaded : ChunkPosition → Bool) (chunks : List ChunkPosition) :
    List (Int × Int) → Except QueryError (List ChunkPosition)
  | [] => .ok chunks
  | (x, z) :: off =>
    match addI32 overflowChecks offset.x x with
    | .error e => .error e
    | .ok cx =>
      match addI32 overflowChecks offset.z z with
      | .error e => .error e
      | .ok cz =>
        let chunk := ChunkPosition.mk cx.1 cz.1 cx.2 cz.2
        if !loaded chunk then pushChunks overflowChecks offset loaded (chunks ++ [chunk]) off
        else pushChunks overflowChecks offset loaded chunks off

/-- What a run of the outer loop gives: its result, and the number of table
entries it has examined (iterations it has started) when it stops. -/
structure LoopOutcome where
  result : Except QueryError (List ChunkPosition)
  examined : Nat

/-- Outer loop `for (d, off) in OFFSETS.iter()` with its `break`; `examined`
counts the iterations. -/
def queryLoop (overflowChecks : Bool) (render_distance : Nat) (offset : ChunkPosition)
    (loaded : ChunkPosition → Bool) :
    List (Nat × List (Int × Int)) → List ChunkPosition → Nat → LoopOutcome
  | [], chunks, _ => { result := .ok chunks, examined := 0 }
  | (d, off) :: rest, chunks, counter =>
    if d ≤ render_distance then
      if d = render_distance then
        if counter = 0 then { result := .error .counterUnderflow, examined := 1 }
        else
          match pushChunks overflowChecks offset loaded chunks off with
          | .error e => { result := .error e, examined := 1 }
          | .ok chunks =>
            if counter - 1 = 0 then { result := .ok chunks, examined := 1 }
            else
              { result := (queryLoop overflowChecks render_distance offset loaded rest chunks
                  (counter - 1)).result
                examined := (queryLoop overflowChecks render_distance offset loaded rest chunks
                  (counter - 1)).examined + 1 }
      else
        match pushChunks overflowChecks offset loaded chunks off with
        | .error e => { result := .error e, examined := 1 }
        | .ok chunks =>
          if counter = 0 then { result := .ok chunks, examined := 1 }
          else
            { result := (queryLoop overflowChecks render_distance offset loaded rest chunks
                counter).result
              examined := (queryLoop overflowChecks render_distance offset loaded rest chunks
                counter).examined + 1 }
    else
      if counter = 0 then { result := .ok chunks, examined := 1 }
      else
        { result := (queryLoop overflowChecks render_distance offset loaded rest chunks
            counter).result
          examined := (queryLoop overflowChecks render_distance offset loaded rest chunks
            counter).examined + 1 }

/-- Emitted function `get_chunks_to_load(render_distance, offset, loaded)` over
the tables built for `m`; the set `loaded` is given by its membership test
`loaded.contains`. -/
def get_chunks_to_load (overflowChecks : Bool) (m : Nat) (render_distance : Nat)
    (offset : ChunkPosition) (loaded : ChunkPosition → Bool) :
    Except QueryError (List ChunkPosition) :=
  if render_distance ≤ m then
    match (GROUPS m)[render_distance]? with
    | none => .error .indexOutOfBounds
    | some counter =>
      (queryLoop overflowChecks render_distance offset loaded (OFFSETS m) [] counter).result
  else .error .renderDistanceTooLarge

/-- The cell `offset + v` of the integer grid, when it is a `ChunkPosition`. -/
def chunkAt? (offset : ChunkPosition) (v : Int × Int) : Option ChunkPosition :=
  if h : inI32 (offset.x + v.1) ∧ inI32 (offset.z + v.2) then
    some (ChunkPosition.mk (offset.x + v.1) (offset.z + v.2) h.1 h.2)
  else none

/-- The loop of `get_chunks_to_load` without the `break`, in the words of the
specification: a scan of the whole table that emits, in table order, the cell
`offset + (x, z)` for every `(x, z)` of every group with distance at most
`render_distance` that is not loaded. -/
def fullScan (render_distance : Nat) (offset : ChunkPosition) (loaded : ChunkPosition → Bool)
    (table : List (Nat × List (Int × Int))) : List ChunkPosition :=
  (((table.filter (fun g => decide (g.1 ≤ render_distance))).flatMap (fun g => g.2)).filterMap
    (chunkAt? offset)).filter (fun c => !loaded c)

/-! ## Notions used in the statements and proofs -/

/-- Generation order: `x` ascending, then `z` ascending. -/
def genBefore (a b : Int × Int) : Prop :=
  a.1 < b.1 ∨ (a.1 = b.1 ∧ a.2 < b.2)

instance : DecidableRel genBefore :=
  fun a b => inferInstanceAs (Decidable (a.1 < b.1 ∨ (a.1 = b.1 ∧ a.2 < b.2)))

/-- Order of the sorted sequence: smaller key first, equal keys in generation order. -/
def sendBefore (a b : Int × Int) : Prop :=
  lengthSquared a < lengthSquared b ∨ (lengthSquared a = lengthSquared b ∧ genBefore a b)

instance : DecidableRel sendBefore :=
  fun a b => inferInstanceAs
    (Decidable (lengthSquared a < lengthSquared b ∨ (lengthSquared a = lengthSquared b ∧ genBefore a b)))

/-- The table the loop would produce if it stopped in state `s`. -/
def stateTable (s : GroupState) : List OffsetGroup :=
  s.grouped_offsets ++ [s.group]

/-- Concatenation of the offsets of all groups of a table, in table order. -/
def concatOffsets (table : List OffsetGroup) : List (Int × Int) :=
  table.flatMap (fun g => g.offsets)

/-- Every offset of a group has the group's distance. -/
def TagsOk (s : GroupState) : Prop :=
  ∀ g ∈ stateTable s, ∀ v ∈ g.offsets, chebyshev v = g.distance

/-- No group is empty. -/
def NonEmpty (s : GroupState) : Prop :=
  ∀ g ∈ stateTable s, g.offsets ≠ []

/-- Number of groups of a table with distance `d`. -/
def groupCount (table : List OffsetGroup) (d : Nat) : Nat :=
  table.countP (fun g => decide (g.distance = d))

/-- The counts array has one entry per distance and each entry counts the groups. -/
def CountsOk (m : Nat) (s : GroupState) : Prop :=
  s.distance_group_counts.length = m + 1 ∧
    ∀ d, d ≤ m → s.distance_group_counts.getD d 0 = groupCount (stateTable s) d

/-- A table is safe for `R` when every group with distance at most `R` is
followed, at its own position or later, by a group with distance `R`. -/
def SafeFor (R : Nat) (table : List OffsetGroup) : Prop :=
  ∀ pre g post, table = pre ++ g :: post → g.distance ≤ R →
    ∃ h ∈ g :: post, h.distance = R

/-- Position of the last group of the table with distance `d`, if there is one. -/
def lastGroupPos : List OffsetGroup → Nat → Option Nat
  | [], _ => none
  | g :: table, d =>
    match lastGroupPos table d with
    | some k => some (k + 1)
    | none => if g.distance = d then some 0 else none

/-- The chunk the emitted code builds from `offset` and `v` when no addition
panics: `offset + v` with each coordinate wrapped to `i32`. -/
def chunkWrap (offset : ChunkPosition) (v : Int × Int) : ChunkPosition :=
  ChunkPosition.mk (wrapI32 (offset.x + v.1)) (wrapI32 (offset.z + v.2))
    (by unfold wrapI32 inI32; omega) (by unfold wrapI32 inI32; omega)

/-- Both coordinates of `offset + v` are `i32` values. -/
def FitsI32 (offset : ChunkPosition) (v : Int × Int) : Prop :=
  inI32 (offset.x + v.1) ∧ inI32 (offset.z + v.2)

/-- The square of radius `R` around `offset` lies within the `i32` coordinates. -/
def InRange (offset : ChunkPosition) (R : Nat) : Prop :=
  (inI32 (offset.x - R) ∧ inI32 (offset.x + R)) ∧
    (inI32 (offset.z - R) ∧ inI32 (offset.z + R))

/-- What the loop emits over a whole table when no addition panics: `fullScan`
with the wrapped chunks. -/
def wrapScan (R : Nat) (offset : ChunkPosition) (loaded : ChunkPosition → Bool)
    (table : List (Nat × List (Int × Int))) : List ChunkPosition :=
  (((table.filter (fun g => decide (g.1 ≤ R))).flatMap (fun g => g.2)).map
    (chunkWrap offset)).filter (fun c => !loaded c)

/-- No addition of the loop over `table` panics: the build wraps, or every offset
of every entry with distance at most `R` leads to an `i32` position. -/
def NoPanic (overflowChecks : Bool) (R : Nat) (offset : ChunkPosition)
    (table : List (Nat × List (Int × Int))) : Prop :=
  overflowChecks = false ∨ ∀ e ∈ table, e.1 ≤ R → ∀ v ∈ e.2, FitsI32 offset v

instance (offset : ChunkPosition) (R : Nat) : Decidable (InRange offset R) :=
  inferInstanceAs (Decidable ((inI32 (offset.x - R) ∧ inI32 (offset.x + R)) ∧
    (inI32 (offset.z - R) ∧ inI32 (offset.z + R))))

/-- The position `(2147483647, 0)`, whose `x` is the greatest `i32` value. -/
def edgeOrigin : ChunkPosition :=
  ChunkPosition.mk 2147483647 0 (by decide) (by decide)

/-- The position `(10, 10)`. -/
def tenTen : ChunkPosition :=
  ChunkPosition.mk 10 10 (by decide) (by decide)

/-- Number of entries of an emitted table with distance `R`. -/
def entryCount (R : Nat) (table : List (Nat × List (Int × Int))) : Nat :=
  table.countP (fun g => decide (g.1 = R))

/-- Safety of an emitted table: every entry with distance at most `R` is
followed, at its own position or later, by an entry with distance `R`. -/
def SafeEntries (R : Nat) (table : List (Nat × List (Int × Int))) : Prop :=
  ∀ pre g post, table = pre ++ g :: post → g.1 ≤ R → ∃ h ∈ g :: post, h.1 = R

/-- Sum of the sizes of the groups of a table with distance `d`. -/
def shellSize (table : List OffsetGroup) (d : Nat) : Nat :=
  ((table.filter (fun g => decide (g.distance = d))).map (fun g => g.offsets.length)).sum

/-- The loop of `queryLoop` with the statement `if counter == 0 { break; }` removed. -/
def queryLoopNoBreak (overflowChecks : Bool) (render_distance : Nat) (offset : ChunkPosition)
    (loaded : ChunkPosition → Bool) :
    List (Nat × List (Int × Int)) → List ChunkPosition → Nat →
      Except QueryError (List ChunkPosition)
  | [], chunks, _ => .ok chunks
  | (d, off) :: rest, chunks, counter =>
    if d ≤ render_distance then
      if d = render_distance then
        if counter = 0 then .error .counterUnderflow
        else
          match pushChunks overflowChecks offset loaded chunks off with
          | .error e => .error e
          | .ok chunks =>
            queryLoopNoBreak overflowChecks render_distance offset loaded rest chunks
              (counter - 1)
      else
        match pushChunks overflowChecks offset loaded chunks off with
        | .error e => .error e
        | .ok chunks =>
          queryLoopNoBreak overflowChecks render_distance offset loaded rest chunks counter
    else
      queryLoopNoBreak overflowChecks render_distance offset loaded rest chunks counter

instance : IsAntisymm (Int × Int) genBefore :=
  ⟨fun a b hab hba => by
    unfold genBefore at hab hba
    exact Prod.ext (by omega) (by omega)⟩

/-! ## Further notions about the tables and the query -/

/-- Function `getVarName`: the template `OFFSETS_D${group.distance}_${group.i}`. -/
def getVarName (group : OffsetGroup) : String :=
  "OFFSETS_D" ++ toString group.distance ++ "_" ++ toString group.i

/-- Two groups next to each other in the table have different distances. -/
def AdjacentOk (s : GroupState) : Prop :=
  (stateTable s).Chain' (fun g h => g.distance ≠ h.distance)

/-- The field `i` of every group is the number of groups with the same distance
before it in the table. -/
def IndexOk (table : List OffsetGroup) : Prop :=
  ∀ pre g post, table = pre ++ g :: post → g.i = groupCount pre g.distance

/-- Decimal digits of a number, the most significant first. -/
def decimal (n : Nat) : List Char :=
  if n < 10 then [Nat.digitChar n]
  else decimal (n / 10) ++ [Nat.digitChar (n % 10)]
termination_by n
decreasing_by omega

/-- A value stored in `distance_group_counts`: a number, or `NaN`. -/
inductive JsCount where
  | num (n : Nat)
  | nan
deriving DecidableEq, Repr

/-- The ways the script can stop before its tables exist. -/
inductive BuildError where
  | invalidArrayLength
deriving DecidableEq, Repr

/-- The table part of the script for any integer `maxRenderDistance`.
`new Array(maxRenderDistance + 1)` throws a `RangeError` for a negative length.
For `maxRenderDistance = -1` the array is empty, `range(1, -1)` yields nothing, so
`offsets` is empty, `distance_group_counts[0]++` stores `NaN` at index 0, the loop
does not run and the initial group is pushed.  Otherwise the tables are those of
`grouped_offsets` and `distance_group_counts`. -/
def buildTables (maxRenderDistance : Int) :
    Except BuildError (List OffsetGroup × List JsCount) :=
  if maxRenderDistance + 1 < 0 then .error .invalidArrayLength
  else if maxRenderDistance < 0 then
    .ok ([{ distance := 0, i := 0, offsets := [] }], [JsCount.nan])
  else
    .ok (grouped_offsets maxRenderDistance.toNat,
      (distance_group_counts maxRenderDistance.toNat).map JsCount.num)

/-- The values of `counter` at the executions of `counter -= 1` in the loop of
`queryLoop`, in order, when no addition of coordinates panics (a panic cuts the
sequence short); a value 0 is an attempt to subtract from 0. -/
def countdownValues (render_distance : Nat) :
    List (Nat × List (Int × Int)) → Nat → List Nat
  | [], _ => []
  | (d, _) :: rest, counter =>
    if d ≤ render_distance then
      if d = render_distance then
        if counter = 0 then [counter]
        else
          counter ::
            (if counter - 1 = 0 then []
             else countdownValues render_distance rest (counter - 1))
      else
        if counter = 0 then []
        else countdownValues render_distance rest counter
    else
      if counter = 0 then []
      else countdownValues render_distance rest counter

end ChunkSendOrder

/-!
# The generator library

A shallow embedding of the generator classes of `code_generators/code/generator_lib.js`.
A generator object holds a reference to the generator it writes to; here the state
of a generator contains the state of that generator, down to the file.  A method
call returns the new state and whether the call threw; what was written before a
throw stays written.
-/

namespace GeneratorLib

/-- The chain of classes of a generator: its own class and the chain of the
generator it writes to; `rustCode` is `RustCodeGenerator`, which writes to a file. -/
inductive Shape where
  | rustCode
  | function (gen : Shape)
  | codeBlock (gen : Shape)
  | inlined (gen : Shape)
  | matchGen (gen : Shape)
  | enumGen (gen : Shape)
  | implGen (gen : Shape)
deriving DecidableEq, Repr

/-- The fields of a generator: `finished` for every class, the text passed to the
file writer for `RustCodeGenerator`, `params` and `returnType` for
`FunctionGenerator`, `firstLine` for `InlinedGenerator`, and `generator`. -/
inductive Gen : Shape → Type where
  | rustCode (finished : Bool) (written : String) : Gen .rustCode
  | function {sh : Shape} (finished : Bool) (params : Option (List String))
      (returnType : Option String) (generator : Gen sh) : Gen (.function sh)
  | codeBlock {sh : Shape} (finished : Bool) (generator : Gen sh) : Gen (.codeBlock sh)
  | inlined {sh : Shape} (finished : Bool) (firstLine : Bool) (generator : Gen sh) :
      Gen (.inlined sh)
  | matchGen {sh : Shape} (finished : Bool) (generator : Gen sh) : Gen (.matchGen sh)
  | enumGen {sh : Shape} (finished : Bool) (generator : Gen sh) : Gen (.enumGen sh)
  | implGen {sh : Shape} (finished : Bool) (generator : Gen sh) : Gen (.implGen sh)

/-- Field `finished` of a generator. -/
def Gen.finished : {sh : Shape} → Gen sh → Bool
  | _, .rustCode finished _ => finished
  | _, .function finished _ _ _ => finished
  | _, .codeBlock finished _ => finished
  | _, .inlined finished _ _ => finished
  | _, .matchGen finished _ => finished
  | _, .enumGen finished _ => finished
  | _, .implGen finished _ => finished

/-- The text passed to the writer of the file at the end of the chain. -/
def Gen.fileText : {sh : Shape} → Gen sh → String
  | _, .rustCode _ written => written
  | _, .function _ _ _ generator => generator.fileText
  | _, .codeBlock _ generator => generator.fileText
  | _, .inlined _ _ generator => generator.fileText
  | _, .matchGen _ generator => generator.fileText
  | _, .enumGen _ generator => generator.fileText
  | _, .implGen _ generator => generator.fileText

/-- A method call on a generator: the new state, and `true` when the call threw. -/
abbrev Call (sh : Shape) : Type := Gen sh → Gen sh × Bool

/-- Two calls one after the other; the second is skipped when the first throws. -/
def Call.andThen {sh : Shape} (a b : Call sh) : Call sh :=
  fun g => if (a g).2 then a g else b (a g).1

/-- The calls of a list in order, up to the first that throws. -/
def Call.all {sh : Shape} : List (Call sh) → Call sh
  | [] => fun g => (g, false)
  | a :: rest => a.andThen (Call.all rest)

/-- Expression `" ".repeat(indent)`. -/
def spaces (indent : Nat) : String :=
  String.mk (List.replicate indent ' ')

/-- The header text of `finishParams`:
`params.join(", ")`, `)`, the return type when `returnType` is truthy, and the
opening brace. -/
def paramsText (params : List String) (returnType : Option String) : String :=
  ", ".intercalate params ++ ")" ++
    (match returnType with
      | some t => if t = "" then "" else " -> " ++ t
      | none => "") ++ " \x7b"

/-- Method `write(text)`. -/
def write : (sh : Shape) → Gen sh → String → Gen sh × Bool
  | .rustCode, .rustCode finished written, text =>
    if finished then (.rustCode finished written, true)
    else (.rustCode finished (written ++ text), false)
  | .function sh, .function finished params returnType generator, text =>
    if finished then (.function finished params returnType generator, true)
    else
      match params with
      | some ps =>
        -- `this.finishParams()`: `generator.write(...).newLine(); params = null`
        let r1 := write sh generator (paramsText ps returnType)
        if r1.2 then (.function finished (some ps) returnType r1.1, true)
        else
          let r2 := write sh r1.1 "\n"
          if r2.2 then (.function finished (some ps) returnType r2.1, true)
          else
            let r3 := write sh r2.1 text
            (.function finished none returnType r3.1, r3.2)
      | none =>
        let r := write sh generator text
        (.function finished none returnType r.1, r.2)
  | .codeBlock sh, .codeBlock finished generator, text =>
    if finished then (.codeBlock finished generator, true)
    else ((.codeBlock finished (write sh generator text).1), (write sh generator text).2)
  | .inlined sh, .inlined finished firstLine generator, text =>
    if finished then (.inlined finished firstLine generator, true)
    else ((.inlined finished firstLine (write sh generator text).1), (write sh generator text).2)
  | .matchGen sh, .matchGen finished generator, text =>
    if finished then (.matchGen finished generator, true)
    else ((.matchGen finished (write sh generator text).1), (write sh generator text).2)
  | .enumGen sh, .enumGen finished generator, text =>
    if finished then (.enumGen finished generator, true)
    else ((.enumGen finished (write sh generator text).1), (write sh generator text).2)
  | .implGen sh, .implGen finished generator, text =>
    if finished then (.implGen finished generator, true)
    else ((.implGen finished (write sh generator text).1), (write sh generator text).2)

/-- Method `newLine()`, which no class overrides: `this.write("\n")`. -/
def newLine (sh : Shape) : Call sh :=
  fun g => write sh g "\n"

/-- Method `indent(indent)`: the method of `CodeGenerator` for `RustCodeGenerator`,
the overriding method for every other class. -/
def indent : (sh : Shape) → Gen sh → Nat → Gen sh × Bool
  | .rustCode, g, n => write .rustCode g (spaces n)
  | .function sh, .function finished params returnType generator, n =>
    match params with
    | some ps =>
      -- `this.finishParams()`, which throws when `finished`
      if finished then (.function finished (some ps) returnType generator, true)
      else
        let r1 := write sh generator (paramsText ps returnType)
        if r1.2 then (.function finished (some ps) returnType r1.1, true)
        else
          let r2 := write sh r1.1 "\n"
          if r2.2 then (.function finished (some ps) returnType r2.1, true)
          else
            let r3 := indent sh r2.1 (n + 2)
            (.function finished none returnType r3.1, r3.2)
    | none =>
      let r := indent sh generator (n + 2)
      (.function finished none returnType r.1, r.2)
  | .codeBlock sh, .codeBlock finished generator, n =>
    ((.codeBlock finished (indent sh generator (n + 2)).1), (indent sh generator (n + 2)).2)
  | .inlined sh, .inlined finished firstLine generator, n =>
    if firstLine then (.inlined finished false generator, false)
    else ((.inlined finished firstLine (indent sh generator n).1), (indent sh generator n).2)
  | .matchGen sh, .matchGen finished generator, n =>
    ((.matchGen finished (indent sh generator (n + 2)).1), (indent sh generator (n + 2)).2)
  | .enumGen sh, .enumGen finished generator, n =>
    ((.enumGen finished (indent sh generator (n + 2)).1), (indent sh generator (n + 2)).2)
  | .implGen sh, .implGen finished generator, n =>
    ((.implGen finished (indent sh generator (n + 2)).1), (indent sh generator (n + 2)).2)

/-- Expression `text.split(/\r?\n/g)` on the characters of `text`; `line` holds
the characters of the piece read so far. -/
def splitLinesFrom : List Char → List Char → List String
  | [], line => [String.mk line]
  | [c], line =>
    if c = '\n' then [String.mk line, String.mk []]
    else [String.mk (line ++ [c])]
  | c :: c2 :: rest, line =>
    if c = '\n' then String.mk line :: splitLinesFrom (c2 :: rest) []
    else if c = '\r' ∧ c2 = '\n' then String.mk line :: splitLinesFrom rest []
    else splitLinesFrom (c2 :: rest) (line ++ [c])

/-- Expression `text.split(/\r?\n/g)`. -/
def splitLines (text : String) : List String :=
  splitLinesFrom text.data []

/-- Method `writeLine(...text)`: for every line of every text,
`this.indent().write(line).newLine()`. -/
def writeLine (sh : Shape) (text : List String) : Call sh :=
  Call.all (text.flatMap (fun t => (splitLines t).map (fun line =>
    Call.andThen (fun g => indent sh g 0)
      (Call.andThen (fun g => write sh g line) (newLine sh)))))

/-- Method `commentLine(...text)`: `this.writeLine` of every line after `// `. -/
def commentLine (sh : Shape) (text : List String) : Call sh :=
  Call.all (text.flatMap (fun t => (splitLines t).map (fun line =>
    writeLine sh ["// " ++ line])))

/-- Method `documentLine(...text)`: `this.writeLine` of every line after `/// `. -/
def documentLine (sh : Shape) (text : List String) : Call sh :=
  Call.all (text.flatMap (fun t => (splitLines t).map (fun line =>
    writeLine sh ["/// " ++ line])))

/-- The closing of `CodeBlockGenerator`, `MatchGenerator` and `EnumGenerator`:
`generator.indent().write("}")` when `generator instanceof InlinedGenerator`,
`generator.writeLine("}")` otherwise. -/
def closeBrace : (sh : Shape) → Call sh
  | .inlined sh => Call.andThen (fun g => indent (.inlined sh) g 0)
      (fun g => write (.inlined sh) g "\x7d")
  | sh => writeLine sh ["\x7d"]

/-- Method `finish()`. -/
def finish : (sh : Shape) → Gen sh → Gen sh × Bool
  | .rustCode, .rustCode _ written => (.rustCode true written, false)
  | .function sh, .function finished params returnType generator =>
    if finished then (.function finished params returnType generator, false)
    else
      -- `if (this.params) this.finishParams()`
      let r0 : Gen (.function sh) × Bool :=
        match params with
        | some ps =>
          let r1 := write sh generator (paramsText ps returnType)
          if r1.2 then (.function finished (some ps) returnType r1.1, true)
          else
            let r2 := write sh r1.1 "\n"
            if r2.2 then (.function finished (some ps) returnType r2.1, true)
            else (.function finished none returnType r2.1, false)
        | none => (.function finished none returnType generator, false)
      if r0.2 then r0
      else
        match r0.1 with
        | .function _ params' returnType' generator' =>
          let r := writeLine sh ["\x7d"] generator'
          if r.2 then (.function finished params' returnType' r.1, true)
          else (.function true params' returnType' r.1, false)
  | .codeBlock sh, .codeBlock finished generator =>
    if finished then (.codeBlock finished generator, false)
    else
      let r := closeBrace sh generator
      if r.2 then (.codeBlock finished r.1, true) else (.codeBlock true r.1, false)
  | .inlined _, .inlined _ firstLine generator => (.inlined true firstLine generator, false)
  | .matchGen sh, .matchGen finished generator =>
    if finished then (.matchGen finished generator, false)
    else
      let r := closeBrace sh generator
      if r.2 then (.matchGen finished r.1, true) else (.matchGen true r.1, false)
  | .enumGen sh, .enumGen finished generator =>
    if finished then (.enumGen finished generator, false)
    else
      let r := closeBrace sh generator
      if r.2 then (.enumGen finished r.1, true) else (.enumGen true r.1, false)
  | .implGen sh, .implGen finished generator =>
    if finished then (.implGen finished generator, false)
    else
      let r := writeLine sh ["\x7d"] generator
      if r.2 then (.implGen finished r.1, true) else (.implGen true r.1, false)

/-- Constructor `new RustCodeGenerator(file)`: nothing written yet. -/
def newRustCodeGenerator : Gen .rustCode :=
  .rustCode false ""

/-- Constructor `new FunctionGenerator(gen, name, retType, pub)`:
`gen.indent().write(...)` with the text `pub fn name(` or `fn name(`. -/
def newFunctionGenerator {sh : Shape} (gen : Gen sh) (name : String)
    (retType : Option String) (pub : Bool) : Gen (.function sh) × Bool :=
  let r := Call.andThen (fun g => indent sh g 0)
    (fun g => write sh g ((if pub then "pub " else "") ++ "fn " ++ name ++ "(")) gen
  (.function false (some []) retType r.1, r.2)

/-- Constructor `new CodeBlockGenerator(gen)`: `gen.writeLine("{")`. -/
def newCodeBlockGenerator {sh : Shape} (gen : Gen sh) : Gen (.codeBlock sh) × Bool :=
  let r := writeLine sh ["\x7b"] gen
  (.codeBlock false r.1, r.2)

/-- Constructor `new InlinedGenerator(gen)`. -/
def newInlinedGenerator {sh : Shape} (gen : Gen sh) : Gen (.inlined sh) × Bool :=
  (.inlined false true gen, false)

/-- Constructor `new MatchGenerator(gen, on)`: `gen.writeLine` of `match on {`. -/
def newMatchGenerator {sh : Shape} (gen : Gen sh) (onValue : String) : Gen (.matchGen sh) × Bool :=
  let r := writeLine sh ["match " ++ onValue ++ " \x7b"] gen
  (.matchGen false r.1, r.2)

/-- Constructor `new EnumGenerator(gen, name, pub)`: `gen.writeLine` of
`pub enum name {` or `enum name {`. -/
def newEnumGenerator {sh : Shape} (gen : Gen sh) (name : String) (pub : Bool) :
    Gen (.enumGen sh) × Bool :=
  let r := writeLine sh [(if pub then "pub " else "") ++ "enum " ++ name ++ " \x7b"] gen
  (.enumGen false r.1, r.2)

/-- Constructor `new ImplGenerator(gen, structName, pubOrTrait)` with
`pubOrTrait = false`: `gen.indent()`, `gen.write("impl ")`,
`gen.write(structName + " {").newLine()`. -/
def newImplGenerator {sh : Shape} (gen : Gen sh) (structName : String) :
    Gen (.implGen sh) × Bool :=
  let r := Call.all
    [fun g => indent sh g 0, fun g => write sh g "impl ",
      fun g => write sh g (structName ++ " \x7b"), newLine sh] gen
  (.implGen false r.1, r.2)

/-- A `FunctionGenerator` over a new `RustCodeGenerator` after `finish()`:
`fn = new FunctionGenerator(new RustCodeGenerator(file), "f"); fn.finish()`. -/
def finishedFunctionGenerator : Gen (.function .rustCode) :=
  (finish _ (newFunctionGenerator newRustCodeGenerator "f" none false).1).1

/-- A `CodeBlockGenerator` over a new `RustCodeGenerator` after `finish()`:
`block = new CodeBlockGenerator(new RustCodeGenerator(file)); block.finish()`. -/
def finishedCodeBlockGenerator : Gen (.codeBlock .rustCode) :=
  (finish _ (newCodeBlockGenerator newRustCodeGenerator).1).1

end GeneratorLib

/-!
# The hash search

A shallow embedding of `testAlgorhitm`, `rotateLeft` and the algorithms
`rotXorShift${i}Factor${factor}` of `code_generators/code/hash_algorhitm.js`.
A hash is an integer; the set `hashes` is the list of its members in insertion order.
-/

namespace HashAlgorhitm

/-- The loop `for (let str of input)` of `testAlgorhitm` with its `return -1`,
followed by `return max`. -/
def testAlgorhitmLoop (algo : String → Int) : List String → List Int → Int → Int
  | [], _, max => max
  | str :: input, hashes, max =>
    let hash := algo str
    if hash ∈ hashes then -1
    else testAlgorhitmLoop algo input (hashes ++ [hash]) (Max.max max hash)

/-- Function `testAlgorhitm(algo, input)`: `hashes = new Set()`, `max = 0`, the loop. -/
def testAlgorhitm (algo : String → Int) (input : List String) : Int :=
  testAlgorhitmLoop algo input [] 0

/-! ## The rotate-xor hashes

The JavaScript functions work on numbers; the operators `<<`, `>>`, `&` and `^`
convert their operands to signed 32-bit integers (`ToInt32`) first.  The emitted
Rust bodies work on `u16`.  Both are embedded on `Int` and `Nat` with the wrap
written out. -/

/-- Conversion `ToInt32` of an integer-valued number: wrap to `[-2^31, 2^31)`. -/
def toInt32 (x : Int) : Int :=
  (x + 2147483648) % 4294967296 - 2147483648

/-- Operator `num << amount`: the shift count is taken modulo 32, the result is
wrapped to 32 bits. -/
def jsShiftLeft (num : Int) (amount : Nat) : Int :=
  toInt32 (toInt32 num * 2 ^ (amount % 32))

/-- Operator `num >> amount`, the sign-propagating shift: the floor of the
division by `2 ^ (amount % 32)`. -/
def jsShiftRight (num : Int) (amount : Nat) : Int :=
  toInt32 num >>> (amount % 32)

/-- Operator `a & b`. -/
def jsAnd (a b : Int) : Int :=
  Int.land (toInt32 a) (toInt32 b)

/-- Operator `a ^ b`. -/
def jsXor (a b : Int) : Int :=
  Int.xor (toInt32 a) (toInt32 b)

/-- Function `rotateLeft(num, amount)`. -/
def rotateLeft (num : Int) (amount : Nat) : Int :=
  let num := jsShiftLeft num amount
  let base := jsAnd num 65535
  let overflow := num - base
  let overflow := jsShiftRight overflow 16
  base + overflow

/-- Expression `c.charCodeAt(0)` for an element `c` of `[...str]`, a code point:
its first UTF-16 code unit. -/
def charCodeAt0 (c : Char) : Int :=
  if c.toNat < 65536 then (c.toNat : Int)
  else ((55296 + (c.toNat - 65536) / 1024 : Nat) : Int)

/-- The function `js` of the algorithm `rotXorShift${i}Factor${factor}`:
`sum = 0`, then for every `c` of `[...str]`,
`sum = rotateLeft(sum, i) ^ (c.charCodeAt(0) * factor)`. -/
def rotXorShiftJs (i factor : Nat) (str : String) : Int :=
  (str.data.map charCodeAt0).foldl
    (fun sum char => jsXor (rotateLeft sum i) (char * (factor : Int))) 0

/-- Method `rotate_left` of `u16`: the bits shifted out at the left come back at
the right. -/
def u16RotateLeft (x n : Nat) : Nat :=
  ((x * 2 ^ (n % 16)) % 65536) ||| ((x % 65536) / 2 ^ (16 - n % 16))

/-- Expression `input.as_bytes()`: the bytes of the UTF-8 encoding of the string. -/
def asBytes (input : String) : List Nat :=
  (input.data.flatMap String.utf8EncodeChar).map UInt8.toNat

/-- The body `rs` of the algorithm `rotXorShift${i}Factor${factor}`:
`sum = 0u16`, then for every byte `c`,
`sum = sum.rotate_left(i).bitxor(*c as u16 * ${factor}u16)`, on `u16`. -/
def rotXorShiftRs (i factor : Nat) (input : String) : Nat :=
  (asBytes input).foldl
    (fun sum c => (u16RotateLeft sum i) ^^^ ((c * factor) % 65536)) 0

end HashAlgorhitm

namespace ChunkSendOrder

/-! ## The generated sequence -/

theorem mem_range {a b x : Int} : x ∈ range a b ↔ a ≤ x ∧ x ≤ b := by
  unfold range
  simp only [List.mem_map, List.mem_range]
  constructor
  · rintro ⟨k, hk, rfl⟩
    omega
  · rintro ⟨h1, h2⟩
    exact ⟨(x - a).toNat, by omega, by omega⟩

theorem range_pairwise_lt (a b : Int) : (range a b).Pairwise (fun x y => x < y) := by
  unfold range
  rw [List.pairwise_map]
  exact (List.pairwise_lt_range _).imp (fun h => by omega)

theorem range_nodup (a b : Int) : (range a b).Nodup :=
  (range_pairwise_lt a b).imp (fun h => ne_of_lt h)

theorem mem_generated {m : Nat} {v : Int × Int} :
    v ∈ generated m ↔ (-(m : Int) ≤ v.1 ∧ v.1 ≤ m) ∧ (-(m : Int) ≤ v.2 ∧ v.2 ≤ m) := by
  obtain ⟨x, z⟩ := v
  unfold generated
  simp only [List.mem_flatMap, List.mem_map, mem_range, Prod.mk.injEq]
  constructor
  · rintro ⟨x', hx, z', hz, rfl, rfl⟩
    exact ⟨hx, hz⟩
  · rintro ⟨hx, hz⟩
    exact ⟨x, hx, z, hz, rfl, rfl⟩

theorem generated_pairwise (m : Nat) : (generated m).Pairwise genBefore := by
  unfold generated
  rw [List.pairwise_flatMap]
  constructor
  · intro x _
    rw [List.pairwise_map]
    exact (range_pairwise_lt _ _).imp (fun h => Or.inr ⟨rfl, h⟩)
  · refine (range_pairwise_lt _ _).imp ?_
    intro x y hxy a ha b hb
    simp only [List.mem_map] at ha hb
    obtain ⟨_, _, rfl⟩ := ha
    obtain ⟨_, _, rfl⟩ := hb
    exact Or.inl hxy

theorem genBefore_ne {a b : Int × Int} (h : genBefore a b) : a ≠ b := by
  rintro rfl
  rcases h with h | ⟨_, h⟩ <;> exact lt_irrefl _ h

theorem generated_nodup (m : Nat) : (generated m).Nodup :=
  (generated_pairwise m).imp genBefore_ne

/-! ## The sort -/

theorem sortLE_iff {a b : Int × Int} : sortLE a b ↔ lengthSquared a ≤ lengthSquared b := by
  unfold sortLE
  omega

theorem sendBefore_key {a b : Int × Int} (h : sendBefore a b) :
    lengthSquared a ≤ lengthSquared b := by
  rcases h with h | ⟨h, _⟩
  · exact le_of_lt h
  · exact le_of_eq h

theorem orderedInsert_sendBefore (a : Int × Int) :
    ∀ l : List (Int × Int), l.Pairwise sendBefore → (∀ b ∈ l, genBefore a b) →
      (l.orderedInsert sortLE a).Pairwise sendBefore
  | [], _, _ => by simp
  | b :: l, hl, hg => by
    rw [List.pairwise_cons] at hl
    by_cases h : sortLE a b
    · rw [List.orderedInsert, if_pos h]
      refine List.Pairwise.cons ?_ (List.Pairwise.cons hl.1 hl.2)
      intro c hc
      have hab := sortLE_iff.mp h
      have hbc : lengthSquared b ≤ lengthSquared c := by
        rcases List.mem_cons.mp hc with rfl | hc'
        · exact le_refl _
        · exact sendBefore_key (hl.1 c hc')
      rcases lt_or_eq_of_le (le_trans hab hbc) with h' | h'
      · exact Or.inl h'
      · exact Or.inr ⟨h', hg c hc⟩
    · rw [List.orderedInsert, if_neg h]
      refine List.Pairwise.cons ?_
        (orderedInsert_sendBefore a l hl.2 (fun c hc => hg c (List.mem_cons_of_mem _ hc)))
      intro c hc
      rcases (List.mem_orderedInsert sortLE).mp hc with rfl | hc'
      · left
        have := mt sortLE_iff.mpr h
        omega
      · exact hl.1 c hc'

theorem insertionSort_sendBefore :
    ∀ l : List (Int × Int), l.Pairwise genBefore → (l.insertionSort sortLE).Pairwise sendBefore
  | [], _ => by simp
  | a :: l, h => by
    rw [List.pairwise_cons] at h
    rw [List.insertionSort]
    refine orderedInsert_sendBefore a _ (insertionSort_sendBefore l h.2) ?_
    intro b hb
    exact h.1 b ((List.mem_insertionSort sortLE).mp hb)

theorem sortedVecs_perm (m : Nat) : (sortedVecs m).Perm (generated m) :=
  List.perm_insertionSort sortLE _

theorem sortedVecs_pairwise (m : Nat) : (sortedVecs m).Pairwise sendBefore :=
  insertionSort_sendBefore _ (generated_pairwise m)

theorem mem_sortedVecs {m : Nat} {v : Int × Int} :
    v ∈ sortedVecs m ↔ (-(m : Int) ≤ v.1 ∧ v.1 ≤ m) ∧ (-(m : Int) ≤ v.2 ∧ v.2 ≤ m) := by
  rw [(sortedVecs_perm m).mem_iff, mem_generated]

theorem sortedVecs_nodup (m : Nat) : (sortedVecs m).Nodup :=
  (sortedVecs_perm m).nodup_iff.mpr (generated_nodup m)

theorem lengthSquared_eq_zero {v : Int × Int} (h : lengthSquared v ≤ 0) : v = (0, 0) := by
  obtain ⟨x, z⟩ := v
  unfold lengthSquared at h
  simp only at h
  have hx : x = 0 := by nlinarith [sq_nonneg x, sq_nonneg z]
  have hz : z = 0 := by nlinarith [sq_nonneg x, sq_nonneg z]
  rw [hx, hz]

/-- The sorted sequence starts with the centre `(0, 0)`. -/
theorem sortedVecs_head (m : Nat) : ∃ tl, sortedVecs m = (0, 0) :: tl := by
  have hmem : ((0 : Int), (0 : Int)) ∈ sortedVecs m := by
    rw [mem_sortedVecs]; simp
  have hp := sortedVecs_pairwise m
  cases hs : sortedVecs m with
  | nil => rw [hs] at hmem; simp at hmem
  | cons a tl =>
    rw [hs] at hmem hp
    rw [List.pairwise_cons] at hp
    rcases List.mem_cons.mp hmem with h | h
    · exact ⟨tl, by rw [← h]⟩
    · have := sendBefore_key (hp.1 _ h)
      have ha : a = (0, 0) := lengthSquared_eq_zero (by simpa [lengthSquared] using this)
      exact ⟨tl, by rw [ha]⟩

/-! ## The grouping loop -/

theorem grouped_offsets_eq (m : Nat) : grouped_offsets m = stateTable (groupLoop m) := rfl

theorem foldl_groupStep_inv (P : GroupState → Prop) (Q : Offset → Prop)
    (hstep : ∀ s o, P s → Q o → P (groupStep s o)) :
    ∀ (l : List Offset) (s : GroupState), P s → (∀ o ∈ l, Q o) → P (l.foldl groupStep s)
  | [], _, hs, _ => hs
  | o :: l, s, hs, hl => by
    rw [List.foldl_cons]
    exact foldl_groupStep_inv P Q hstep l _
      (hstep s o hs (hl o (List.mem_cons_self _ _)))
      (fun o' ho' => hl o' (List.mem_cons_of_mem _ ho'))

theorem stateTable_step_same {s : GroupState} {o : Offset} (h : s.group.distance = o.distance) :
    stateTable (groupStep s o) =
      s.grouped_offsets ++
        [{ distance := s.group.distance, i := s.group.i,
           offsets := s.group.offsets ++ [(o.x, o.z)] }] := by
  unfold groupStep stateTable
  rw [if_pos h]

theorem stateTable_step_diff {s : GroupState} {o : Offset} (h : ¬ s.group.distance = o.distance) :
    stateTable (groupStep s o) =
      stateTable s ++
        [{ distance := o.distance, i := s.distance_group_counts.getD o.distance 0,
           offsets := [(o.x, o.z)] }] := by
  unfold groupStep stateTable
  rw [if_neg h]

theorem counts_step_same {s : GroupState} {o : Offset} (h : s.group.distance = o.distance) :
    (groupStep s o).distance_group_counts = s.distance_group_counts := by
  unfold groupStep
  rw [if_pos h]

theorem counts_step_diff {s : GroupState} {o : Offset} (h : ¬ s.group.distance = o.distance) :
    (groupStep s o).distance_group_counts =
      s.distance_group_counts.set o.distance (s.distance_group_counts.getD o.distance 0 + 1) := by
  unfold groupStep
  rw [if_neg h]

theorem concat_step (s : GroupState) (o : Offset) :
    concatOffsets (stateTable (groupStep s o)) = concatOffsets (stateTable s) ++ [(o.x, o.z)] := by
  by_cases h : s.group.distance = o.distance
  · rw [stateTable_step_same h]
    simp [concatOffsets, stateTable, List.flatMap_append]
  · rw [stateTable_step_diff h]
    simp [concatOffsets, List.flatMap_append]

theorem concat_foldl :
    ∀ (l : List Offset) (s : GroupState),
      concatOffsets (stateTable (l.foldl groupStep s)) =
        concatOffsets (stateTable s) ++ l.map (fun o => (o.x, o.z))
  | [], s => by simp
  | o :: l, s => by
    rw [List.foldl_cons, concat_foldl l, concat_step]
    simp

/-- The groups, read one after the other, are the sorted sequence. -/
theorem concat_grouped_offsets (m : Nat) : concatOffsets (grouped_offsets m) = sortedVecs m := by
  rw [grouped_offsets_eq, groupLoop, concat_foldl]
  simp only [concatOffsets, stateTable, groupInit, offsets, List.map_map, List.nil_append,
    List.flatMap_cons, List.flatMap_nil, List.append_nil]
  exact List.map_id _

theorem tagsOk_step (s : GroupState) (o : Offset) (hs : TagsOk s)
    (ho : o.distance = chebyshev (o.x, o.z)) : TagsOk (groupStep s o) := by
  unfold TagsOk at *
  by_cases h : s.group.distance = o.distance
  · rw [stateTable_step_same h]
    intro g hg v hv
    rcases List.mem_append.mp hg with hg | hg
    · exact hs g (List.mem_append_left _ hg) v hv
    · rw [List.mem_singleton] at hg
      subst hg
      simp only at hv ⊢
      rcases List.mem_append.mp hv with hv | hv
      · exact hs s.group (List.mem_append_right _ (List.mem_singleton_self _)) v hv
      · rw [List.mem_singleton] at hv
        rw [hv, h, ho]
  · rw [stateTable_step_diff h]
    intro g hg v hv
    rcases List.mem_append.mp hg with hg | hg
    · exact hs g hg v hv
    · rw [List.mem_singleton] at hg
      subst hg
      simp only [List.mem_singleton] at hv
      rw [hv, ho]

theorem toOffset_distance (v : Int × Int) :
    (toOffset v).distance = chebyshev ((toOffset v).x, (toOffset v).z) := rfl

theorem tagsOk_grouped_offsets (m : Nat) :
    ∀ g ∈ grouped_offsets m, ∀ v ∈ g.offsets, chebyshev v = g.distance := by
  rw [grouped_offsets_eq, groupLoop]
  refine foldl_groupStep_inv TagsOk (fun o => o.distance = chebyshev (o.x, o.z)) tagsOk_step
    _ _ ?_ ?_
  · intro g hg v hv
    simp [stateTable, groupInit] at hg
    subst hg
    simp at hv
  · intro o ho
    simp only [offsets, List.mem_map] at ho
    obtain ⟨v, _, rfl⟩ := ho
    exact toOffset_distance v

theorem nonEmpty_step (s : GroupState) (o : Offset) (hs : NonEmpty s) (_ : True) :
    NonEmpty (groupStep s o) := by
  unfold NonEmpty at *
  by_cases h : s.group.distance = o.distance
  · rw [stateTable_step_same h]
    intro g hg
    rcases List.mem_append.mp hg with hg | hg
    · exact hs g (List.mem_append_left _ hg)
    · rw [List.mem_singleton] at hg
      subst hg
      simp
  · rw [stateTable_step_diff h]
    intro g hg
    rcases List.mem_append.mp hg with hg | hg
    · exact hs g hg
    · rw [List.mem_singleton] at hg
      subst hg
      simp

theorem nonEmpty_grouped_offsets (m : Nat) : ∀ g ∈ grouped_offsets m, g.offsets ≠ [] := by
  rw [grouped_offsets_eq, groupLoop]
  obtain ⟨tl, htl⟩ := sortedVecs_head m
  rw [offsets, htl, List.map_cons, List.foldl_cons]
  refine foldl_groupStep_inv NonEmpty (fun _ => True) nonEmpty_step _ _ ?_ (fun _ _ => trivial)
  intro g hg
  simp [stateTable, groupInit, groupStep, toOffset, chebyshev] at hg
  subst hg
  simp

theorem countsOk_step (m : Nat) (s : GroupState) (o : Offset) (hs : CountsOk m s)
    (_ho : o.distance ≤ m) : CountsOk m (groupStep s o) := by
  obtain ⟨hlen, hc⟩ := hs
  by_cases h : s.group.distance = o.distance
  · refine ⟨by rw [counts_step_same h]; exact hlen, ?_⟩
    intro d hd
    rw [counts_step_same h, stateTable_step_same h, hc d hd]
    simp only [groupCount, stateTable, List.countP_append]
    rfl
  · refine ⟨by rw [counts_step_diff h, List.length_set]; exact hlen, ?_⟩
    intro d hd
    rw [counts_step_diff h, stateTable_step_diff h]
    simp only [groupCount, List.countP_append] at hc ⊢
    rw [← hc d hd]
    by_cases hdd : o.distance = d
    · subst hdd
      simp [List.getD_eq_getElem?_getD, List.getElem?_set, hlen, Nat.lt_succ_of_le hd]
    · simp [List.getD_eq_getElem?_getD, List.getElem?_set, hdd]

theorem chebyshev_le_of_mem {m : Nat} {v : Int × Int} (h : v ∈ sortedVecs m) :
    chebyshev v ≤ m := by
  rw [mem_sortedVecs] at h
  unfold chebyshev
  omega

theorem countsOk_groupLoop (m : Nat) : CountsOk m (groupLoop m) := by
  rw [groupLoop]
  refine foldl_groupStep_inv (CountsOk m) (fun o => o.distance ≤ m) (countsOk_step m) _ _ ?_ ?_
  · refine ⟨by simp [groupInit], ?_⟩
    intro d hd
    cases d with
    | zero => simp [groupInit, groupCount, stateTable]
    | succ d =>
      have hd' : d < m := hd
      simp [groupInit, groupCount, stateTable, List.getD_eq_getElem?_getD,
        List.getElem?_replicate, hd']
  · intro o ho
    simp only [offsets, List.mem_map] at ho
    obtain ⟨v, hv, rfl⟩ := ho
    exact chebyshev_le_of_mem hv

/-! ## Order of the groups in the table -/

theorem concatOffsets_eq_flatten (table : List OffsetGroup) :
    concatOffsets table = (table.map (fun g => g.offsets)).flatten := by
  unfold concatOffsets
  induction table with
  | nil => rfl
  | cons g t ih => simp [List.flatMap_cons, ih]

theorem groups_pairwise (m : Nat) :
    (grouped_offsets m).Pairwise
      (fun g h => ∀ a ∈ g.offsets, ∀ b ∈ h.offsets, sendBefore a b) := by
  have h := sortedVecs_pairwise m
  rw [← concat_grouped_offsets, concatOffsets_eq_flatten, List.pairwise_flatten,
    List.pairwise_map] at h
  exact h.2

theorem mem_concatOffsets {table : List OffsetGroup} {v : Int × Int} :
    v ∈ concatOffsets table ↔ ∃ g ∈ table, v ∈ g.offsets := by
  unfold concatOffsets
  exact List.mem_flatMap

theorem lengthSquared_le (v : Int × Int) :
    lengthSquared v ≤ 2 * ((chebyshev v : Int) * (chebyshev v : Int)) := by
  obtain ⟨x, z⟩ := v
  unfold lengthSquared chebyshev
  simp only
  have hx : x * x = (x.natAbs : Int) * (x.natAbs : Int) := by
    rw [← Int.natAbs_mul_self]; push_cast; rfl
  have hz : z * z = (z.natAbs : Int) * (z.natAbs : Int) := by
    rw [← Int.natAbs_mul_self]; push_cast; rfl
  rw [hx, hz]
  rcases le_total x.natAbs z.natAbs with h | h
  · rw [max_eq_right h]
    have : (x.natAbs : Int) ≤ z.natAbs := by exact_mod_cast h
    nlinarith [Int.natCast_nonneg x.natAbs, Int.natCast_nonneg z.natAbs]
  · rw [max_eq_left h]
    have : (z.natAbs : Int) ≤ x.natAbs := by exact_mod_cast h
    nlinarith [Int.natCast_nonneg x.natAbs, Int.natCast_nonneg z.natAbs]

/-- The corner `(R, R)` of shell `R` lies in a group with distance `R`. -/
theorem corner_group {m R : Nat} (hR : R ≤ m) :
    ∃ g ∈ grouped_offsets m, g.distance = R ∧ ((R : Int), (R : Int)) ∈ g.offsets := by
  have hmem : ((R : Int), (R : Int)) ∈ concatOffsets (grouped_offsets m) := by
    rw [concat_grouped_offsets, mem_sortedVecs]
    simp only
    omega
  obtain ⟨g, hg, hv⟩ := mem_concatOffsets.mp hmem
  refine ⟨g, hg, ?_, hv⟩
  rw [← tagsOk_grouped_offsets m g hg _ hv]
  simp [chebyshev]

theorem safeFor_grouped_offsets {m R : Nat} (hR : R ≤ m) : SafeFor R (grouped_offsets m) := by
  intro pre g post hT hg
  obtain ⟨c, hc, hcd, hcv⟩ := corner_group hR
  rw [hT] at hc
  rcases List.mem_append.mp hc with hpre | hpost
  · have hp := groups_pairwise m
    rw [hT, List.pairwise_append] at hp
    have hgne : g.offsets ≠ [] :=
      nonEmpty_grouped_offsets m g (by rw [hT]; simp)
    obtain ⟨v, hv⟩ := List.exists_mem_of_ne_nil _ hgne
    have hkey := sendBefore_key (hp.2.2 c hpre g (List.mem_cons_self _ _) _ hcv v hv)
    have hvd : chebyshev v = g.distance :=
      tagsOk_grouped_offsets m g (by rw [hT]; simp) v hv
    have hle := lengthSquared_le v
    rw [hvd] at hle
    have hcorner : lengthSquared ((R : Int), (R : Int)) = 2 * ((R : Int) * (R : Int)) := by
      simp [lengthSquared]; ring
    rw [hcorner] at hkey
    have hRd : R ≤ g.distance := by
      by_contra hlt
      push_neg at hlt
      have h1 : (g.distance : Int) < R := by exact_mod_cast hlt
      nlinarith [Int.natCast_nonneg g.distance]
    exact ⟨g, List.mem_cons_self _ _, le_antisymm hg hRd⟩
  · exact ⟨c, hpost, hcd⟩

theorem lastGroupPos_ge : ∀ (table : List OffsetGroup) (d k : Nat) (hk : k < table.length),
    (table.get ⟨k, hk⟩).distance = d → ∃ j, lastGroupPos table d = some j ∧ k ≤ j
  | [], _, _, hk, _ => by simp at hk
  | g :: table, d, k, hk, hkd => by
    unfold lastGroupPos
    cases k with
    | zero =>
      cases hrec : lastGroupPos table d with
      | some j => exact ⟨j + 1, rfl, by omega⟩
      | none =>
        have hg : g.distance = d := by simpa using hkd
        exact ⟨0, by simp [hg], le_refl _⟩
    | succ k =>
      simp only [List.length_cons] at hk
      obtain ⟨j, hj, hle⟩ := lastGroupPos_ge table d k (by omega) (by simpa using hkd)
      rw [hj]
      exact ⟨j + 1, rfl, by omega⟩

theorem lastGroupPos_some :
    ∀ (table : List OffsetGroup) (d j : Nat), lastGroupPos table d = some j →
      ∃ hj : j < table.length, (table.get ⟨j, hj⟩).distance = d ∧
        ∀ k (hk : k < table.length), j < k → (table.get ⟨k, hk⟩).distance ≠ d
  | [], _, _, h => by simp [lastGroupPos] at h
  | g :: table, d, j, h => by
    unfold lastGroupPos at h
    cases hrec : lastGroupPos table d with
    | some k =>
      rw [hrec] at h
      simp only [Option.some.injEq] at h
      subst h
      obtain ⟨hk, hkd, hlast⟩ := lastGroupPos_some table d k hrec
      refine ⟨by simp; omega, by simpa using hkd, ?_⟩
      intro k' hk' hlt
      cases k' with
      | zero => omega
      | succ k' =>
        simp only [List.length_cons] at hk'
        simpa using hlast k' (by omega) (by omega)
    | none =>
      rw [hrec] at h
      by_cases hg : g.distance = d
      · rw [if_pos hg] at h
        simp only [Option.some.injEq] at h
        subst h
        refine ⟨by simp, by simpa using hg, ?_⟩
        intro k hk hlt
        cases k with
        | zero => omega
        | succ k =>
          simp only [List.length_cons] at hk
          intro hkd
          have := lastGroupPos_ge table d k (by omega) (by simpa using hkd)
          rw [hrec] at this
          obtain ⟨j, hj, _⟩ := this
          cases hj
      · rw [if_neg hg] at h
        cases h

/-! ## The query -/

theorem wrapI32_of_inI32 {v : Int} (h : inI32 v) : wrapI32 v = v := by
  unfold inI32 at h
  unfold wrapI32
  omega

theorem addI32_eq_wrap {overflowChecks : Bool} {a b : Int}
    (h : overflowChecks = false ∨ inI32 (a + b)) :
    ∃ hw : inI32 (wrapI32 (a + b)), addI32 overflowChecks a b = .ok ⟨wrapI32 (a + b), hw⟩ := by
  unfold addI32
  by_cases hin : inI32 (a + b)
  · rw [dif_pos hin]
    have hw := wrapI32_of_inI32 hin
    refine ⟨by rw [hw]; exact hin, ?_⟩
    simp only [hw]
  · rcases h with h | h
    · rw [dif_neg hin, h]
      exact ⟨by unfold wrapI32 inI32; omega, rfl⟩
    · exact absurd h hin

theorem addI32_cases (overflowChecks : Bool) (a b : Int) :
    (∃ r, addI32 overflowChecks a b = .ok r) ∨
      addI32 overflowChecks a b = .error .addOverflow := by
  unfold addI32
  by_cases hin : inI32 (a + b)
  · rw [dif_pos hin]
    exact Or.inl ⟨_, rfl⟩
  · rw [dif_neg hin]
    cases overflowChecks
    · exact Or.inl ⟨_, rfl⟩
    · exact Or.inr rfl

/-- The inner loop when no addition panics: it appends the wrapped chunks that
are not loaded. -/
theorem pushChunks_eq (overflowChecks : Bool) (offset : ChunkPosition)
    (loaded : ChunkPosition → Bool) :
    ∀ (off : List (Int × Int)) (chunks : List ChunkPosition),
      (overflowChecks = false ∨ ∀ v ∈ off, FitsI32 offset v) →
      pushChunks overflowChecks offset loaded chunks off =
        .ok (chunks ++ (off.map (chunkWrap offset)).filter (fun c => !loaded c))
  | [], chunks, _ => by simp [pushChunks]
  | (x, z) :: off, chunks, h => by
    have hx : overflowChecks = false ∨ inI32 (offset.x + x) :=
      h.imp id (fun h' => (h' (x, z) (List.mem_cons_self _ _)).1)
    have hz : overflowChecks = false ∨ inI32 (offset.z + z) :=
      h.imp id (fun h' => (h' (x, z) (List.mem_cons_self _ _)).2)
    have htl : overflowChecks = false ∨ ∀ v ∈ off, FitsI32 offset v :=
      h.imp id (fun h' v hv => h' v (List.mem_cons_of_mem _ hv))
    obtain ⟨hwx, ex⟩ := addI32_eq_wrap hx
    obtain ⟨hwz, ez⟩ := addI32_eq_wrap hz
    have hchunk : ChunkPosition.mk (wrapI32 (offset.x + x)) (wrapI32 (offset.z + z)) hwx hwz =
        chunkWrap offset (x, z) := rfl
    unfold pushChunks
    simp only [ex, ez, hchunk]
    by_cases hl : (!loaded (chunkWrap offset (x, z))) = true
    · rw [if_pos hl, pushChunks_eq overflowChecks offset loaded off _ htl]
      simp [List.filter_cons, hl]
    · rw [if_neg hl, pushChunks_eq overflowChecks offset loaded off _ htl]
      simp [List.filter_cons, hl]

/-- The inner loop gives a list or stops with an overflow of an addition. -/
theorem pushChunks_cases (overflowChecks : Bool) (offset : ChunkPosition)
    (loaded : ChunkPosition → Bool) :
    ∀ (off : List (Int × Int)) (chunks : List ChunkPosition),
      (∃ cs, pushChunks overflowChecks offset loaded chunks off = .ok cs) ∨
        pushChunks overflowChecks offset loaded chunks off = .error .addOverflow
  | [], chunks => Or.inl ⟨chunks, rfl⟩
  | (x, z) :: off, chunks => by
    unfold pushChunks
    rcases addI32_cases overflowChecks offset.x x with ⟨cx, ex⟩ | ex
    · rcases addI32_cases overflowChecks offset.z z with ⟨cz, ez⟩ | ez
      · simp only [ex, ez]
        split
        · exact pushChunks_cases overflowChecks offset loaded off _
        · exact pushChunks_cases overflowChecks offset loaded off _
      · simp only [ex, ez]
        exact Or.inr trivial
    · simp only [ex]
      exact Or.inr trivial

theorem wrapScan_nil (R : Nat) (offset : ChunkPosition) (loaded : ChunkPosition → Bool) :
    wrapScan R offset loaded [] = [] := rfl

theorem wrapScan_cons_le (R : Nat) (offset : ChunkPosition) (loaded : ChunkPosition → Bool)
    (g : Nat × List (Int × Int)) (rest : List (Nat × List (Int × Int))) (h : g.1 ≤ R) :
    wrapScan R offset loaded (g :: rest) =
      (g.2.map (chunkWrap offset)).filter (fun c => !loaded c) ++
        wrapScan R offset loaded rest := by
  unfold wrapScan
  rw [List.filter_cons_of_pos (by simpa using h), List.flatMap_cons, List.map_append,
    List.filter_append]

theorem wrapScan_cons_gt (R : Nat) (offset : ChunkPosition) (loaded : ChunkPosition → Bool)
    (g : Nat × List (Int × Int)) (rest : List (Nat × List (Int × Int))) (h : ¬ g.1 ≤ R) :
    wrapScan R offset loaded (g :: rest) = wrapScan R offset loaded rest := by
  unfold wrapScan
  rw [List.filter_cons_of_neg (by simpa using h)]

theorem wrapScan_all_gt (R : Nat) (offset : ChunkPosition) (loaded : ChunkPosition → Bool) :
    ∀ (table : List (Nat × List (Int × Int))), (∀ g ∈ table, ¬ g.1 ≤ R) →
      wrapScan R offset loaded table = []
  | [], _ => rfl
  | g :: rest, h => by
    rw [wrapScan_cons_gt R offset loaded g rest (h g (List.mem_cons_self _ _))]
    exact wrapScan_all_gt R offset loaded rest (fun g' hg' => h g' (List.mem_cons_of_mem _ hg'))

theorem noPanic_tail {overflowChecks : Bool} {R : Nat} {offset : ChunkPosition}
    {e : Nat × List (Int × Int)} {rest : List (Nat × List (Int × Int))}
    (h : NoPanic overflowChecks R offset (e :: rest)) : NoPanic overflowChecks R offset rest :=
  h.imp id (fun h' e' he' => h' e' (List.mem_cons_of_mem _ he'))

theorem noPanic_head {overflowChecks : Bool} {R : Nat} {offset : ChunkPosition}
    {e : Nat × List (Int × Int)} {rest : List (Nat × List (Int × Int))}
    (h : NoPanic overflowChecks R offset (e :: rest)) (he : e.1 ≤ R) :
    overflowChecks = false ∨ ∀ v ∈ e.2, FitsI32 offset v :=
  h.imp id (fun h' => h' e (List.mem_cons_self _ _) he)

theorem safeEntries_tail {R : Nat} {g : Nat × List (Int × Int)}
    {rest : List (Nat × List (Int × Int))} (h : SafeEntries R (g :: rest)) :
    SafeEntries R rest := by
  intro pre x post hrest hx
  exact h (g :: pre) x post (by rw [hrest]; rfl) hx

theorem safeEntries_all_gt {R : Nat} {rest : List (Nat × List (Int × Int))}
    (h : SafeEntries R rest) (hc : entryCount R rest = 0) : ∀ g ∈ rest, ¬ g.1 ≤ R := by
  intro g hg hle
  obtain ⟨pre, post, hsplit⟩ := List.append_of_mem hg
  obtain ⟨x, hx, hxR⟩ := h pre g post hsplit hle
  have hxm : x ∈ rest := by rw [hsplit]; exact List.mem_append_right _ hx
  have : 0 < entryCount R rest :=
    List.countP_pos_iff.mpr ⟨x, hxm, by simpa using hxR⟩
  omega

/-- With the counter set to the number of entries with distance `R`, a safe table
and no panic, the loop with the `break` returns what the scan of the whole table
emits. -/
theorem queryLoop_result_eq (overflowChecks : Bool) (R : Nat) (offset : ChunkPosition)
    (loaded : ChunkPosition → Bool) :
    ∀ (table : List (Nat × List (Int × Int))) (chunks : List ChunkPosition),
      SafeEntries R table → 0 < entryCount R table → NoPanic overflowChecks R offset table →
        (queryLoop overflowChecks R offset loaded table chunks (entryCount R table)).result =
          .ok (chunks ++ wrapScan R offset loaded table)
  | [], _, _, hpos, _ => by simp [entryCount] at hpos
  | (d, off) :: rest, chunks, hsafe, hpos, hnp => by
    have hsafe' := safeEntries_tail hsafe
    have hnp' := noPanic_tail hnp
    unfold queryLoop
    by_cases hle : d ≤ R
    · have hpush := pushChunks_eq overflowChecks offset loaded off chunks (noPanic_head hnp hle)
      rw [if_pos hle, wrapScan_cons_le R offset loaded (d, off) rest hle, hpush]
      by_cases heq : d = R
      · have hcnt : entryCount R ((d, off) :: rest) = entryCount R rest + 1 := by
          simp [entryCount, List.countP_cons, heq]
        rw [if_pos heq, hcnt, if_neg (Nat.succ_ne_zero _)]
        simp only [Nat.add_sub_cancel]
        by_cases hz : entryCount R rest = 0
        · rw [if_pos hz, wrapScan_all_gt R offset loaded rest (safeEntries_all_gt hsafe' hz)]
          simp
        · rw [if_neg hz]
          simp only
          rw [queryLoop_result_eq overflowChecks R offset loaded rest _ hsafe'
            (Nat.pos_of_ne_zero hz) hnp']
          simp
      · have hcnt : entryCount R ((d, off) :: rest) = entryCount R rest := by
          simp [entryCount, List.countP_cons, heq]
        rw [hcnt] at hpos ⊢
        rw [if_neg heq]
        simp only
        rw [if_neg (Nat.ne_of_gt hpos)]
        simp only
        rw [queryLoop_result_eq overflowChecks R offset loaded rest _ hsafe' hpos hnp']
        simp
    · have heq : ¬ d = R := fun h => hle (le_of_eq h)
      have hcnt : entryCount R ((d, off) :: rest) = entryCount R rest := by
        simp [entryCount, List.countP_cons, heq]
      rw [hcnt] at hpos ⊢
      rw [if_neg hle, if_neg (Nat.ne_of_gt hpos), wrapScan_cons_gt R offset loaded (d, off) rest hle]
      simp only
      exact queryLoop_result_eq overflowChecks R offset loaded rest _ hsafe' hpos hnp'

/-- With a counter that is at least the number of entries with distance `R`, the
loop returns a list or stops with an overflow of an addition. -/
theorem queryLoop_result_cases (overflowChecks : Bool) (R : Nat) (offset : ChunkPosition)
    (loaded : ChunkPosition → Bool) :
    ∀ (table : List (Nat × List (Int × Int))) (chunks : List ChunkPosition) (counter : Nat),
      entryCount R table ≤ counter →
        (∃ cs, (queryLoop overflowChecks R offset loaded table chunks counter).result = .ok cs) ∨
          (queryLoop overflowChecks R offset loaded table chunks counter).result =
            .error .addOverflow
  | [], chunks, _, _ => Or.inl ⟨chunks, rfl⟩
  | (d, off) :: rest, chunks, counter, hc => by
    unfold queryLoop
    by_cases heq : d = R
    · have hcnt : entryCount R ((d, off) :: rest) = entryCount R rest + 1 := by
        simp [entryCount, List.countP_cons, heq]
      rw [hcnt] at hc
      rw [if_pos (le_of_eq heq), if_pos heq, if_neg (by omega)]
      rcases pushChunks_cases overflowChecks offset loaded off chunks with ⟨cs, hcs⟩ | herr
      · rw [hcs]
        simp only
        by_cases hz : counter - 1 = 0
        · rw [if_pos hz]
          exact Or.inl ⟨cs, rfl⟩
        · rw [if_neg hz]
          exact queryLoop_result_cases overflowChecks R offset loaded rest cs (counter - 1)
            (by omega)
      · rw [herr]
        exact Or.inr rfl
    · have hcnt : entryCount R ((d, off) :: rest) = entryCount R rest := by
        simp [entryCount, List.countP_cons, heq]
      rw [hcnt] at hc
      by_cases hle : d ≤ R
      · rw [if_pos hle, if_neg heq]
        rcases pushChunks_cases overflowChecks offset loaded off chunks with ⟨cs, hcs⟩ | herr
        · rw [hcs]
          simp only
          by_cases hz : counter = 0
          · rw [if_pos hz]
            exact Or.inl ⟨cs, rfl⟩
          · rw [if_neg hz]
            exact queryLoop_result_cases overflowChecks R offset loaded rest cs counter hc
        · rw [herr]
          exact Or.inr rfl
      · rw [if_neg hle]
        by_cases hz : counter = 0
        · rw [if_pos hz]
          exact Or.inl ⟨chunks, rfl⟩
        · rw [if_neg hz]
          exact queryLoop_result_cases overflowChecks R offset loaded rest chunks counter hc

theorem noBreak_all_gt (overflowChecks : Bool) (R : Nat) (offset : ChunkPosition)
    (loaded : ChunkPosition → Bool) :
    ∀ (table : List (Nat × List (Int × Int))) (chunks : List ChunkPosition) (counter : Nat),
      (∀ g ∈ table, ¬ g.1 ≤ R) →
        queryLoopNoBreak overflowChecks R offset loaded table chunks counter = .ok chunks
  | [], _, _, _ => rfl
  | (d, off) :: rest, chunks, counter, h => by
    unfold queryLoopNoBreak
    rw [if_neg (h (d, off) (List.mem_cons_self _ _))]
    exact noBreak_all_gt overflowChecks R offset loaded rest chunks counter
      (fun g hg => h g (List.mem_cons_of_mem _ hg))

/-- On a safe table, with the counter set to the number of entries with distance
`R`, the loop without the `break` ends as the loop with it, whether or not an
addition overflows. -/
theorem queryLoopNoBreak_eq (overflowChecks : Bool) (R : Nat) (offset : ChunkPosition)
    (loaded : ChunkPosition → Bool) :
    ∀ (table : List (Nat × List (Int × Int))) (chunks : List ChunkPosition),
      SafeEntries R table → 0 < entryCount R table →
        queryLoopNoBreak overflowChecks R offset loaded table chunks (entryCount R table) =
          (queryLoop overflowChecks R offset loaded table chunks (entryCount R table)).result
  | [], _, _, hpos => by simp [entryCount] at hpos
  | (d, off) :: rest, chunks, hsafe, hpos => by
    have hsafe' := safeEntries_tail hsafe
    unfold queryLoop queryLoopNoBreak
    by_cases heq : d = R
    · have hcnt : entryCount R ((d, off) :: rest) = entryCount R rest + 1 := by
        simp [entryCount, List.countP_cons, heq]
      rw [hcnt, if_pos (le_of_eq heq), if_pos heq, if_neg (Nat.succ_ne_zero _),
        if_pos (le_of_eq heq), if_pos heq, if_neg (Nat.succ_ne_zero _)]
      simp only [Nat.add_sub_cancel]
      rcases pushChunks_cases overflowChecks offset loaded off chunks with ⟨cs, hcs⟩ | herr
      · rw [hcs]
        simp only
        by_cases hz : entryCount R rest = 0
        · rw [if_pos hz, hz]
          exact noBreak_all_gt overflowChecks R offset loaded rest cs 0
            (safeEntries_all_gt hsafe' hz)
        · rw [if_neg hz]
          exact queryLoopNoBreak_eq overflowChecks R offset loaded rest cs hsafe'
            (Nat.pos_of_ne_zero hz)
      · rw [herr]
    · have hcnt : entryCount R ((d, off) :: rest) = entryCount R rest := by
        simp [entryCount, List.countP_cons, heq]
      rw [hcnt] at hpos ⊢
      by_cases hle : d ≤ R
      · rw [if_pos hle, if_neg heq, if_pos hle, if_neg heq]
        rcases pushChunks_cases overflowChecks offset loaded off chunks with ⟨cs, hcs⟩ | herr
        · rw [hcs]
          simp only
          rw [if_neg (Nat.ne_of_gt hpos)]
          exact queryLoopNoBreak_eq overflowChecks R offset loaded rest cs hsafe' hpos
        · rw [herr]
      · rw [if_neg hle, if_neg hle, if_neg (Nat.ne_of_gt hpos)]
        exact queryLoopNoBreak_eq overflowChecks R offset loaded rest chunks hsafe' hpos

theorem entryCount_OFFSETS (m R : Nat) :
    entryCount R (OFFSETS m) = groupCount (grouped_offsets m) R := by
  unfold entryCount OFFSETS groupCount
  rw [List.countP_map]
  rfl

theorem safeEntries_OFFSETS {m R : Nat} (hR : R ≤ m) : SafeEntries R (OFFSETS m) := by
  intro pre g post hT hg
  unfold OFFSETS at hT
  obtain ⟨pre', tl, hsplit, hpre, htl⟩ := List.map_eq_append_iff.mp hT
  obtain ⟨g', post', rfl, hg', hpost⟩ := List.map_eq_cons_iff.mp htl
  subst hg' hpost
  obtain ⟨x, hx, hxR⟩ := safeFor_grouped_offsets hR pre' g' post' hsplit hg
  refine ⟨(x.distance, x.offsets), ?_, hxR⟩
  have := List.mem_map_of_mem (fun g : OffsetGroup => (g.distance, g.offsets)) hx
  simpa using this

theorem groupCount_pos {m R : Nat} (hR : R ≤ m) : 0 < groupCount (grouped_offsets m) R := by
  obtain ⟨c, hc, hcd, _⟩ := corner_group hR
  exact List.countP_pos_iff.mpr ⟨c, hc, by simpa using hcd⟩

theorem GROUPS_getElem? {m R : Nat} (hR : R ≤ m) :
    (GROUPS m)[R]? = some (groupCount (grouped_offsets m) R) := by
  obtain ⟨hlen, hc⟩ := countsOk_groupLoop m
  have h := hc R hR
  unfold GROUPS distance_group_counts
  rw [grouped_offsets_eq, ← h, List.getD_eq_getElem?_getD,
    List.getElem?_eq_getElem (by omega)]
  rfl

theorem fitsI32_of_chebyshev {offset : ChunkPosition} {R : Nat} (h : InRange offset R)
    {v : Int × Int} (hv : chebyshev v ≤ R) : FitsI32 offset v := by
  unfold InRange inI32 at h
  unfold chebyshev at hv
  unfold FitsI32 inI32
  omega

theorem chunkWrap_of_fits {offset : ChunkPosition} {v : Int × Int} (h : FitsI32 offset v) :
    (chunkWrap offset v).x = offset.x + v.1 ∧ (chunkWrap offset v).z = offset.z + v.2 :=
  ⟨wrapI32_of_inI32 h.1, wrapI32_of_inI32 h.2⟩

theorem chunkAt?_of_fits {offset : ChunkPosition} {v : Int × Int} (h : FitsI32 offset v) :
    chunkAt? offset v = some (chunkWrap offset v) := by
  have h' : inI32 (offset.x + v.1) ∧ inI32 (offset.z + v.2) := h
  unfold chunkAt?
  rw [dif_pos h']
  simp only [chunkWrap, wrapI32_of_inI32 h.1, wrapI32_of_inI32 h.2]

theorem filterMap_chunkAt? (offset : ChunkPosition) :
    ∀ (l : List (Int × Int)), (∀ v ∈ l, FitsI32 offset v) →
      l.filterMap (chunkAt? offset) = l.map (chunkWrap offset)
  | [], _ => rfl
  | v :: l, h => by
    rw [List.filterMap_cons, chunkAt?_of_fits (h v (List.mem_cons_self _ _)), List.map_cons,
      filterMap_chunkAt? offset l (fun w hw => h w (List.mem_cons_of_mem _ hw))]

/-- When every offset the scan visits leads to an `i32` position, the scan of the
specification and the scan with wrapped chunks are the same. -/
theorem fullScan_eq_wrapScan (R : Nat) (offset : ChunkPosition) (loaded : ChunkPosition → Bool)
    (table : List (Nat × List (Int × Int)))
    (h : ∀ e ∈ table, e.1 ≤ R → ∀ v ∈ e.2, FitsI32 offset v) :
    fullScan R offset loaded table = wrapScan R offset loaded table := by
  unfold fullScan wrapScan
  rw [filterMap_chunkAt?]
  intro v hv
  obtain ⟨e, he, hve⟩ := List.mem_flatMap.mp hv
  rw [List.mem_filter] at he
  exact h e he.1 (by simpa using he.2) v hve

theorem fits_OFFSETS {m R : Nat} {offset : ChunkPosition} (h : InRange offset R) :
    ∀ e ∈ OFFSETS m, e.1 ≤ R → ∀ v ∈ e.2, FitsI32 offset v := by
  intro e he hle v hv
  unfold OFFSETS at he
  obtain ⟨g, hg, rfl⟩ := List.mem_map.mp he
  apply fitsI32_of_chebyshev h
  rw [tagsOk_grouped_offsets m g hg v hv]
  exact hle

theorem noPanic_OFFSETS {overflowChecks : Bool} {m R : Nat} {offset : ChunkPosition}
    (h : overflowChecks = false ∨ InRange offset R) :
    NoPanic overflowChecks R offset (OFFSETS m) :=
  h.imp id fits_OFFSETS

theorem get_chunks_to_load_eq {overflowChecks : Bool} {m R : Nat} (hR : R ≤ m)
    (offset : ChunkPosition) (loaded : ChunkPosition → Bool)
    (h : overflowChecks = false ∨ InRange offset R) :
    get_chunks_to_load overflowChecks m R offset loaded =
      .ok (wrapScan R offset loaded (OFFSETS m)) := by
  unfold get_chunks_to_load
  rw [if_pos hR, GROUPS_getElem? hR]
  simp only
  rw [← entryCount_OFFSETS, queryLoop_result_eq overflowChecks R offset loaded _ _
    (safeEntries_OFFSETS hR) (by rw [entryCount_OFFSETS]; exact groupCount_pos hR)
    (noPanic_OFFSETS h)]
  simp

/-! ## Counting the offsets of a shell -/

theorem length_range (a b : Int) : (range a b).length = (b + 1 - a).toNat := by
  simp [range]

theorem length_generated (d : Nat) : (generated d).length = (2 * d + 1) * (2 * d + 1) := by
  unfold generated
  rw [List.length_flatMap]
  have hlen : (range (-(d : Int)) d).length = 2 * d + 1 := by
    rw [length_range]; omega
  have hconst : (range (-(d : Int)) d).map
      (List.length ∘ fun x => (range (-(d : Int)) d).map (fun z => (x, z))) =
      List.replicate (2 * d + 1) (2 * d + 1) := by
    rw [List.eq_replicate_iff]
    refine ⟨by rw [List.length_map, hlen], ?_⟩
    intro b hb
    obtain ⟨x, _, rfl⟩ := List.mem_map.mp hb
    simp [hlen]
  rw [hconst]
  simp

theorem chebyshev_le_iff {v : Int × Int} {d : Nat} :
    chebyshev v ≤ d ↔ (-(d : Int) ≤ v.1 ∧ v.1 ≤ d) ∧ (-(d : Int) ≤ v.2 ∧ v.2 ≤ d) := by
  unfold chebyshev
  omega

/-- The offsets within distance `d` of the table for `m` are those of the table for `d`. -/
theorem filter_generated_perm {m d : Nat} (hd : d ≤ m) :
    ((generated m).filter (fun v => decide (chebyshev v ≤ d))).Perm (generated d) := by
  rw [List.perm_ext_iff_of_nodup ((generated_nodup m).filter _) (generated_nodup d)]
  intro v
  simp only [List.mem_filter, mem_generated, decide_eq_true_eq, chebyshev_le_iff]
  omega

theorem countP_le_generated {m d : Nat} (hd : d ≤ m) :
    (generated m).countP (fun v => decide (chebyshev v ≤ d)) = (2 * d + 1) * (2 * d + 1) := by
  rw [List.countP_eq_length_filter, (filter_generated_perm hd).length_eq, length_generated]

theorem countP_le_succ (d : Nat) :
    ∀ l : List (Int × Int),
      l.countP (fun v => decide (chebyshev v ≤ d + 1)) =
        l.countP (fun v => decide (chebyshev v ≤ d)) +
          l.countP (fun v => decide (chebyshev v = d + 1))
  | [] => rfl
  | v :: l => by
    simp only [List.countP_cons, countP_le_succ d l]
    by_cases h1 : chebyshev v ≤ d
    · have h2 : chebyshev v ≤ d + 1 := by omega
      have h3 : ¬ chebyshev v = d + 1 := by omega
      simp [h1, h2, h3]
      omega
    · by_cases h3 : chebyshev v = d + 1
      · have h2 : chebyshev v ≤ d + 1 := by omega
        simp [h1, h2, h3]
        omega
      · have h2 : ¬ chebyshev v ≤ d + 1 := by omega
        simp [h1, h2, h3]

/-- Number of offsets of the square of radius `m` at distance exactly `d`. -/
theorem countP_eq_generated {m d : Nat} (hd : d ≤ m) :
    (generated m).countP (fun v => decide (chebyshev v = d)) = if d = 0 then 1 else 8 * d := by
  cases d with
  | zero =>
    have h := countP_le_generated (Nat.zero_le m)
    simp only [Nat.le_zero_eq] at h
    rw [h]
    rfl
  | succ d =>
    have h1 := countP_le_generated hd
    have h0 := countP_le_generated (Nat.le_of_succ_le hd)
    rw [countP_le_succ d (generated m), h0] at h1
    rw [if_neg (Nat.succ_ne_zero d)]
    have e1 : (2 * (d + 1) + 1) * (2 * (d + 1) + 1) = (2 * d + 1) * (2 * d + 1) + 8 * (d + 1) := by
      ring
    omega

theorem shellSize_eq_countP (d : Nat) :
    ∀ table : List OffsetGroup, (∀ g ∈ table, ∀ v ∈ g.offsets, chebyshev v = g.distance) →
      shellSize table d = (concatOffsets table).countP (fun v => decide (chebyshev v = d))
  | [], _ => rfl
  | g :: table, h => by
    have ih := shellSize_eq_countP d table (fun g' hg' => h g' (List.mem_cons_of_mem _ hg'))
    have hg := h g (List.mem_cons_self _ _)
    unfold shellSize concatOffsets at ih ⊢
    rw [List.flatMap_cons, List.countP_append, ← ih]
    by_cases hd : g.distance = d
    · rw [List.filter_cons_of_pos (by simpa using hd), List.map_cons, List.sum_cons]
      congr 1
      rw [List.countP_eq_length_filter, List.filter_eq_self.mpr]
      intro v hv
      simp [hg v hv, hd]
    · rw [List.filter_cons_of_neg (by simpa using hd)]
      have : g.offsets.countP (fun v => decide (chebyshev v = d)) = 0 := by
        rw [List.countP_eq_zero]
        intro v hv
        simp [hg v hv, hd]
      omega

theorem shellSize_grouped_offsets {m d : Nat} (hd : d ≤ m) :
    shellSize (grouped_offsets m) d = if d = 0 then 1 else 8 * d := by
  rw [shellSize_eq_countP d _ (tagsOk_grouped_offsets m), concat_grouped_offsets,
    (sortedVecs_perm m).countP_eq, countP_eq_generated hd]

/-! ## The full scan over the built table -/

theorem flatMap_filter_entries (R : Nat) :
    ∀ table : List OffsetGroup, (∀ g ∈ table, ∀ v ∈ g.offsets, chebyshev v = g.distance) →
      ((table.map (fun g => (g.distance, g.offsets))).filter
          (fun e => decide (e.1 ≤ R))).flatMap (fun e => e.2) =
        (concatOffsets table).filter (fun v => decide (chebyshev v ≤ R))
  | [], _ => rfl
  | g :: table, h => by
    have ih := flatMap_filter_entries R table (fun g' hg' => h g' (List.mem_cons_of_mem _ hg'))
    have hg := h g (List.mem_cons_self _ _)
    unfold concatOffsets at ih ⊢
    rw [List.map_cons, List.flatMap_cons, List.filter_append, ← ih]
    by_cases hd : g.distance ≤ R
    · rw [List.filter_cons_of_pos (by simpa using hd), List.flatMap_cons]
      congr 1
      symm
      rw [List.filter_eq_self]
      intro v hv
      simp [hg v hv, hd]
    · rw [List.filter_cons_of_neg (by simpa using hd)]
      have : g.offsets.filter (fun v => decide (chebyshev v ≤ R)) = [] := by
        rw [List.filter_eq_nil_iff]
        intro v hv
        simp [hg v hv, hd]
      rw [this, List.nil_append]

theorem wrapScan_OFFSETS (m R : Nat) (offset : ChunkPosition) (loaded : ChunkPosition → Bool) :
    wrapScan R offset loaded (OFFSETS m) =
      (((sortedVecs m).filter (fun v => decide (chebyshev v ≤ R))).map
        (chunkWrap offset)).filter (fun c => !loaded c) := by
  unfold wrapScan OFFSETS
  rw [flatMap_filter_entries R _ (tagsOk_grouped_offsets m), concat_grouped_offsets]

theorem chunkPosition_ext {a b : ChunkPosition} (hx : a.x = b.x) (hz : a.z = b.z) : a = b := by
  cases a
  cases b
  simp only at hx hz
  subst hx hz
  rfl

/-- The result of the query when no addition can overflow. -/
theorem query_in_range {m R : Nat} (hR : R ≤ m) (origin : ChunkPosition)
    (hfit : InRange origin R) (overflowChecks : Bool) (isPresent : ChunkPosition → Bool) :
    get_chunks_to_load overflowChecks m R origin isPresent =
      .ok ((((sortedVecs m).filter (fun v => decide (chebyshev v ≤ R))).map
        (chunkWrap origin)).filter (fun c => !isPresent c)) := by
  rw [get_chunks_to_load_eq hR origin isPresent (Or.inr hfit), wrapScan_OFFSETS]

/-! ## Stability of the sort -/

theorem filter_key_sortedVecs (m : Nat) (k : Int) :
    (sortedVecs m).filter (fun v => decide (lengthSquared v = k)) =
      (generated m).filter (fun v => decide (lengthSquared v = k)) := by
  refine List.eq_of_perm_of_sorted ((sortedVecs_perm m).filter _) ?_
    ((generated_pairwise m).filter _)
  have h := (sortedVecs_pairwise m).filter (fun v => decide (lengthSquared v = k))
  rw [List.pairwise_iff_forall_sublist] at h
  unfold List.Sorted
  rw [List.pairwise_iff_forall_sublist]
  intro a b hab
  have ha : lengthSquared a = k := by
    have := List.mem_filter.mp (hab.subset (List.mem_cons_self _ _))
    simpa using this.2
  have hb : lengthSquared b = k := by
    have := List.mem_filter.mp (hab.subset (List.mem_cons_of_mem _ (List.mem_cons_self _ _)))
    simpa using this.2
  rcases h hab with hlt | ⟨_, hg⟩
  · omega
  · exact hg

/-! ## The claims -/

/-- C1, the claim at the origin `(2147483647, 0)` with `m = 2`, `R = 1` and
nothing present: with overflow checks the query panics; without them it returns a
list with the cell `(-2147483648, 0)`, which is not `origin + (dx, dz)` for any
offset with `max |dx| |dz| ≤ 1`. -/
theorem query_contents_at_edge :
    1 ≤ 2 ∧
      get_chunks_to_load true 2 1 edgeOrigin (fun _ => false) = .error .addOverflow ∧
      (∃ cells, get_chunks_to_load false 2 1 edgeOrigin (fun _ => false) = .ok cells ∧
        ChunkPosition.mk (-2147483648) 0 (by decide) (by decide) ∈ cells) ∧
      ¬ ∃ dx dz : Int, max dx.natAbs dz.natAbs ≤ 1 ∧
        (-2147483648 : Int) = edgeOrigin.x + dx ∧ (0 : Int) = edgeOrigin.z + dz := by
  refine ⟨by decide, rfl, ⟨_, rfl, by decide⟩, ?_⟩
  rintro ⟨dx, dz, hd, hx, _⟩
  have : edgeOrigin.x = 2147483647 := rfl
  omega

/-- C1, amended: for `R ≤ m` and an origin whose square of radius `R` lies
within the `i32` coordinates, the query returns a list, with or without overflow
checks; a cell is in the list exactly when it is `origin + (dx, dz)` for an offset
with `max |dx| |dz| ≤ R` and it is not present; no cell occurs twice. -/
theorem query_contents (overflowChecks : Bool) (m R : Nat) (hR : R ≤ m)
    (origin : ChunkPosition) (hfit : InRange origin R) (isPresent : ChunkPosition → Bool) :
    ∃ cells, get_chunks_to_load overflowChecks m R origin isPresent = .ok cells ∧
      cells.Nodup ∧
      ∀ c, c ∈ cells ↔
        ((∃ dx dz : Int, max dx.natAbs dz.natAbs ≤ R ∧
            c.x = origin.x + dx ∧ c.z = origin.z + dz) ∧ isPresent c = false) := by
  refine ⟨_, query_in_range hR origin hfit overflowChecks isPresent, ?_, ?_⟩
  · refine List.Nodup.filter _ (List.Nodup.map_on ?_ ((sortedVecs_nodup m).filter _))
    intro v hv w hw hvw
    have hv' : chebyshev v ≤ R := by simpa using (List.mem_filter.mp hv).2
    have hw' : chebyshev w ≤ R := by simpa using (List.mem_filter.mp hw).2
    have h1 := chunkWrap_of_fits (fitsI32_of_chebyshev hfit hv')
    have h2 := chunkWrap_of_fits (fitsI32_of_chebyshev hfit hw')
    rw [hvw] at h1
    exact Prod.ext (by omega) (by omega)
  · intro c
    simp only [List.mem_filter, List.mem_map, decide_eq_true_eq, Bool.not_eq_true']
    constructor
    · rintro ⟨⟨v, ⟨_, hv⟩, rfl⟩, hp⟩
      have h1 := chunkWrap_of_fits (fitsI32_of_chebyshev hfit hv)
      exact ⟨⟨v.1, v.2, hv, h1.1, h1.2⟩, hp⟩
    · rintro ⟨⟨dx, dz, hd, hx, hz⟩, hp⟩
      have hv : chebyshev (dx, dz) ≤ R := hd
      have h1 := chunkWrap_of_fits (fitsI32_of_chebyshev hfit hv)
      refine ⟨⟨(dx, dz), ⟨?_, hv⟩, ?_⟩, hp⟩
      · rw [mem_sortedVecs]
        simp only
        omega
      · exact chunkPosition_ext (by rw [h1.1, hx]) (by rw [h1.2, hz])

theorem query_contents_witness :
    (1 ≤ 2 ∧ InRange tenTen 1) ∧
      ∃ cells, get_chunks_to_load true 2 1 tenTen (fun c => decide (c = tenTen)) = .ok cells ∧
        cells.Nodup ∧
        ∀ c, c ∈ cells ↔
          ((∃ dx dz : Int, max dx.natAbs dz.natAbs ≤ 1 ∧
              c.x = tenTen.x + dx ∧ c.z = tenTen.z + dz) ∧
            (fun c => decide (c = tenTen)) c = false) :=
  ⟨⟨by decide, by decide⟩,
    query_contents true 2 1 (by decide) tenTen (by decide) (fun c => decide (c = tenTen))⟩

/-- C2, the claim at the origin `(2147483647, 0)` with `m = 2`, `R = 1` and
nothing present: with overflow checks the query panics; without them the cell
`(-2147483648, 0)`, whose difference to the origin has by far the greatest key, is
followed by four more cells, so the result is not ordered by the keys of
`cell - origin`. -/
theorem query_order_at_edge :
    1 ≤ 2 ∧
      get_chunks_to_load true 2 1 edgeOrigin (fun _ => false) = .error .addOverflow ∧
      ∃ cells, get_chunks_to_load false 2 1 edgeOrigin (fun _ => false) = .ok cells ∧
        ¬ cells.Chain' (fun a b =>
          sendBefore (a.x - edgeOrigin.x, a.z - edgeOrigin.z)
            (b.x - edgeOrigin.x, b.z - edgeOrigin.z)) := by
  have hget : get_chunks_to_load false 2 1 edgeOrigin (fun _ => false) = .ok
      [ChunkPosition.mk 2147483647 0 (by decide) (by decide),
        ChunkPosition.mk 2147483646 0 (by decide) (by decide),
        ChunkPosition.mk 2147483647 (-1) (by decide) (by decide),
        ChunkPosition.mk 2147483647 1 (by decide) (by decide),
        ChunkPosition.mk (-2147483648) 0 (by decide) (by decide),
        ChunkPosition.mk 2147483646 (-1) (by decide) (by decide),
        ChunkPosition.mk 2147483646 1 (by decide) (by decide),
        ChunkPosition.mk (-2147483648) (-1) (by decide) (by decide),
        ChunkPosition.mk (-2147483648) 1 (by decide) (by decide)] := rfl
  refine ⟨by decide, rfl, _, hget, ?_⟩
  intro h
  simp only [List.chain'_cons] at h
  exact absurd h.2.2.2.2.1 (by decide)

/-- C2, amended: for `R ≤ m` and an origin whose square of radius `R` lies
within the `i32` coordinates, the query result is ordered nearest first: of two
result cells, the earlier one has the offset with the smaller `lengthSquared`, or
the keys are equal and its offset is generated first (`dx` ascending, then `dz`
ascending); this holds for consecutive cells and for any two cells of the result. -/
theorem query_order (overflowChecks : Bool) (m R : Nat) (hR : R ≤ m)
    (origin : ChunkPosition) (hfit : InRange origin R) (isPresent : ChunkPosition → Bool) :
    ∃ cells, get_chunks_to_load overflowChecks m R origin isPresent = .ok cells ∧
      cells.Chain' (fun a b =>
        sendBefore (a.x - origin.x, a.z - origin.z) (b.x - origin.x, b.z - origin.z)) ∧
      cells.Pairwise (fun a b =>
        sendBefore (a.x - origin.x, a.z - origin.z) (b.x - origin.x, b.z - origin.z)) := by
  have hp : ((((sortedVecs m).filter (fun v => decide (chebyshev v ≤ R))).map
      (chunkWrap origin)).filter (fun c => !isPresent c)).Pairwise (fun a b =>
      sendBefore (a.x - origin.x, a.z - origin.z) (b.x - origin.x, b.z - origin.z)) := by
    refine List.Pairwise.filter _ ?_
    rw [List.pairwise_map]
    refine ((sortedVecs_pairwise m).filter _).imp_of_mem ?_
    intro a b ha hb hab
    have ha' : chebyshev a ≤ R := by simpa using (List.mem_filter.mp ha).2
    have hb' : chebyshev b ≤ R := by simpa using (List.mem_filter.mp hb).2
    have h1 := chunkWrap_of_fits (fitsI32_of_chebyshev hfit ha')
    have h2 := chunkWrap_of_fits (fitsI32_of_chebyshev hfit hb')
    have ea : ((chunkWrap origin a).x - origin.x, (chunkWrap origin a).z - origin.z) = a :=
      Prod.ext (by simp only; omega) (by simp only; omega)
    have eb : ((chunkWrap origin b).x - origin.x, (chunkWrap origin b).z - origin.z) = b :=
      Prod.ext (by simp only; omega) (by simp only; omega)
    rw [ea, eb]
    exact hab
  exact ⟨_, query_in_range hR origin hfit overflowChecks isPresent, hp.chain', hp⟩

theorem query_order_witness :
    (1 ≤ 2 ∧ InRange tenTen 1) ∧
      ∃ cells, get_chunks_to_load true 2 1 tenTen (fun c => decide (c = tenTen)) = .ok cells ∧
        cells.Chain' (fun a b =>
          sendBefore (a.x - tenTen.x, a.z - tenTen.z) (b.x - tenTen.x, b.z - tenTen.z)) ∧
        cells.Pairwise (fun a b =>
          sendBefore (a.x - tenTen.x, a.z - tenTen.z) (b.x - tenTen.x, b.z - tenTen.z)) :=
  ⟨⟨by decide, by decide⟩,
    query_order true 2 1 (by decide) tenTen (by decide) (fun c => decide (c = tenTen))⟩

/-- C3, the claim at the origin `(2147483647, 0)` with `m = 2`, `R = 1` and
nothing present: the full scan emits the six cells `origin + offset` that exist;
with overflow checks the query panics, and without them it returns nine cells,
three of them wrapped to `x = -2147483648`. -/
theorem query_early_exit_at_edge :
    1 ≤ 2 ∧
      (fullScan 1 edgeOrigin (fun _ => false) (OFFSETS 2)).length = 6 ∧
      get_chunks_to_load true 2 1 edgeOrigin (fun _ => false) = .error .addOverflow ∧
      (∃ cells, get_chunks_to_load false 2 1 edgeOrigin (fun _ => false) = .ok cells ∧
        cells.length = 9) ∧
      get_chunks_to_load true 2 1 edgeOrigin (fun _ => false) ≠
        .ok (fullScan 1 edgeOrigin (fun _ => false) (OFFSETS 2)) ∧
      get_chunks_to_load false 2 1 edgeOrigin (fun _ => false) ≠
        .ok (fullScan 1 edgeOrigin (fun _ => false) (OFFSETS 2)) := by
  have h1 : get_chunks_to_load true 2 1 edgeOrigin (fun _ => false) = .error .addOverflow :=
    rfl
  have h2 : (fullScan 1 edgeOrigin (fun _ => false) (OFFSETS 2)).length = 6 := by decide
  refine ⟨by decide, h2, h1, ⟨_, rfl, rfl⟩, ?_, ?_⟩
  · rw [h1]
    intro h
    cases h
  · intro h
    have h3 : get_chunks_to_load false 2 1 edgeOrigin (fun _ => false) =
        .ok (wrapScan 1 edgeOrigin (fun _ => false) (OFFSETS 2)) := rfl
    rw [h3] at h
    injection h with h
    have h4 := congrArg List.length h
    rw [h2] at h4
    revert h4
    decide

/-- C3, amended: for `R ≤ m` the loop without the `break` ends as the query
with the early exit does, at every origin and with or without overflow checks;
and at an origin whose square of radius `R` lies within the `i32` coordinates, the
query returns the list of the full scan of the table (in table order,
`origin + offset` for every offset of every group with distance at most `R` that is
not present). -/
theorem query_early_exit (overflowChecks : Bool) (m R : Nat) (hR : R ≤ m)
    (origin : ChunkPosition) (isPresent : ChunkPosition → Bool) :
    (∃ counter, (GROUPS m)[R]? = some counter ∧
        queryLoopNoBreak overflowChecks R origin isPresent (OFFSETS m) [] counter =
          get_chunks_to_load overflowChecks m R origin isPresent) ∧
      (InRange origin R →
        get_chunks_to_load overflowChecks m R origin isPresent =
          .ok (fullScan R origin isPresent (OFFSETS m))) := by
  constructor
  · have hG := GROUPS_getElem? hR
    refine ⟨_, hG, ?_⟩
    unfold get_chunks_to_load
    rw [if_pos hR, hG]
    simp only
    rw [← entryCount_OFFSETS]
    exact queryLoopNoBreak_eq overflowChecks R origin isPresent _ _ (safeEntries_OFFSETS hR)
      (by rw [entryCount_OFFSETS]; exact groupCount_pos hR)
  · intro hfit
    rw [get_chunks_to_load_eq hR origin isPresent (Or.inr hfit),
      fullScan_eq_wrapScan R origin isPresent _ (fits_OFFSETS hfit)]

theorem query_early_exit_witness :
    (1 ≤ 2 ∧ InRange tenTen 1) ∧
      (∃ counter, (GROUPS 2)[1]? = some counter ∧
        queryLoopNoBreak true 1 tenTen (fun c => decide (c = tenTen)) (OFFSETS 2) []
            counter =
          get_chunks_to_load true 2 1 tenTen (fun c => decide (c = tenTen))) ∧
      get_chunks_to_load true 2 1 tenTen (fun c => decide (c = tenTen)) =
        .ok (fullScan 1 tenTen (fun c => decide (c = tenTen)) (OFFSETS 2)) :=
  ⟨⟨by decide, by decide⟩,
    (query_early_exit true 2 1 (by decide) tenTen (fun c => decide (c = tenTen))).1,
    (query_early_exit true 2 1 (by decide) tenTen (fun c => decide (c = tenTen))).2
      (by decide)⟩

/-- C4: for `d ≤ R ≤ m`, the table has a last group with distance `R`, and every
group with distance `d` is at a position less than or equal to its position. -/
theorem shell_before_last (m R d : Nat) (hd : d ≤ R) (hR : R ≤ m) :
    ∃ j, lastGroupPos (grouped_offsets m) R = some j ∧
      ∀ i (hi : i < (grouped_offsets m).length),
        ((grouped_offsets m).get ⟨i, hi⟩).distance = d → i ≤ j := by
  obtain ⟨c, hc, hcd, _⟩ := corner_group hR
  obtain ⟨k, hk, hkc⟩ := List.mem_iff_getElem.mp hc
  obtain ⟨j, hj, _⟩ := lastGroupPos_ge (grouped_offsets m) R k hk (by simp [hkc, hcd])
  refine ⟨j, hj, ?_⟩
  intro i hi hid
  rw [List.get_eq_getElem] at hid
  have hsplit : grouped_offsets m =
      (grouped_offsets m).take i ++
        (grouped_offsets m)[i] :: (grouped_offsets m).drop (i + 1) := by
    rw [List.getElem_cons_drop, List.take_append_drop]
  obtain ⟨x, hx, hxR⟩ := safeFor_grouped_offsets hR _ _ _ hsplit (by rw [hid]; exact hd)
  rw [List.getElem_cons_drop] at hx
  obtain ⟨n, hn, hnx⟩ := List.mem_iff_getElem.mp hx
  rw [List.getElem_drop] at hnx
  rw [List.length_drop] at hn
  obtain ⟨j', hj', hle⟩ := lastGroupPos_ge (grouped_offsets m) R (i + n) (by omega)
    (by simp [hnx, hxR])
  rw [hj] at hj'
  simp only [Option.some.injEq] at hj'
  omega

theorem shell_before_last_witness :
    (1 ≤ 2 ∧ 2 ≤ 2) ∧ ∃ j, lastGroupPos (grouped_offsets 2) 2 = some j ∧
      ∀ i (hi : i < (grouped_offsets 2).length),
        ((grouped_offsets 2).get ⟨i, hi⟩).distance = 1 → i ≤ j :=
  ⟨by decide, shell_before_last 2 2 1 (by decide) (by decide)⟩

/-- C5: the offsets of all groups, read in table order, are a permutation of
the square of radius `m`: no offset occurs twice (so the groups are pairwise
disjoint and none repeats an offset), an offset occurs exactly when both of its
coordinates are in `[-m, m]`, and there are `(2m+1)²` of them. -/
theorem partition_complete (m : Nat) :
    (concatOffsets (grouped_offsets m)).Perm (generated m) ∧
      (concatOffsets (grouped_offsets m)).Nodup ∧
      (∀ g ∈ grouped_offsets m, g.offsets.Nodup) ∧
      (grouped_offsets m).Pairwise (fun g h => List.Disjoint g.offsets h.offsets) ∧
      (∀ v : Int × Int, v ∈ concatOffsets (grouped_offsets m) ↔
        ((-(m : Int) ≤ v.1 ∧ v.1 ≤ m) ∧ (-(m : Int) ≤ v.2 ∧ v.2 ≤ m))) ∧
      (concatOffsets (grouped_offsets m)).length = (2 * m + 1) * (2 * m + 1) := by
  have hnd : (concatOffsets (grouped_offsets m)).Nodup := by
    rw [concat_grouped_offsets]; exact sortedVecs_nodup m
  have hsplit := hnd
  unfold concatOffsets at hsplit
  rw [List.nodup_flatMap] at hsplit
  refine ⟨?_, hnd, hsplit.1, hsplit.2, ?_, ?_⟩
  · rw [concat_grouped_offsets]; exact sortedVecs_perm m
  · intro v
    rw [concat_grouped_offsets]; exact mem_sortedVecs
  · rw [concat_grouped_offsets, (sortedVecs_perm m).length_eq, length_generated]

/-- C6: every offset stored in a group has Chebyshev distance equal to the
group's distance; hence the offsets of the groups with distance `d` are exactly the
offsets of the square of radius `m` at Chebyshev distance `d`. -/
theorem shell_correct (m : Nat) :
    (∀ g ∈ grouped_offsets m, ∀ v ∈ g.offsets,
        max v.1.natAbs v.2.natAbs = g.distance) ∧
      ∀ (d : Nat) (v : Int × Int),
        (∃ g ∈ grouped_offsets m, g.distance = d ∧ v ∈ g.offsets) ↔
          (((-(m : Int) ≤ v.1 ∧ v.1 ≤ m) ∧ (-(m : Int) ≤ v.2 ∧ v.2 ≤ m)) ∧
            max v.1.natAbs v.2.natAbs = d) := by
  refine ⟨tagsOk_grouped_offsets m, ?_⟩
  intro d v
  constructor
  · rintro ⟨g, hg, hgd, hv⟩
    have hmem : v ∈ concatOffsets (grouped_offsets m) := mem_concatOffsets.mpr ⟨g, hg, hv⟩
    rw [concat_grouped_offsets] at hmem
    refine ⟨mem_sortedVecs.mp hmem, ?_⟩
    rw [← hgd]
    exact tagsOk_grouped_offsets m g hg v hv
  · rintro ⟨hsq, hd⟩
    have hmem : v ∈ concatOffsets (grouped_offsets m) := by
      rw [concat_grouped_offsets]; exact mem_sortedVecs.mpr hsq
    obtain ⟨g, hg, hv⟩ := mem_concatOffsets.mp hmem
    refine ⟨g, hg, ?_, hv⟩
    rw [← hd]
    exact (tagsOk_grouped_offsets m g hg v hv).symm

/-- C7: the array `distance_group_counts` has `m + 1` entries, and for `d ≤ m`
its entry `d` is the number of groups of the table with distance `d`. -/
theorem counts_correct (m d : Nat) (hd : d ≤ m) :
    (distance_group_counts m).length = m + 1 ∧
      (distance_group_counts m)[d]? =
        some ((grouped_offsets m).countP (fun g => decide (g.distance = d))) :=
  ⟨(countsOk_groupLoop m).1, GROUPS_getElem? hd⟩

theorem counts_correct_witness :
    1 ≤ 2 ∧ ((distance_group_counts 2).length = 2 + 1 ∧
      (distance_group_counts 2)[1]? =
        some ((grouped_offsets 2).countP (fun g => decide (g.distance = 1)))) :=
  ⟨by decide, counts_correct 2 1 (by decide)⟩

/-- C8: the offsets of the groups, read in table order, are the generated
sequence (`dx` ascending outside, `dz` ascending inside) after the stable sort by
`lengthSquared`: a permutation of it along which the keys never decrease and in
which the offsets of each key keep their generation order. -/
theorem table_is_stable_sort (m : Nat) :
    concatOffsets (grouped_offsets m) = (generated m).insertionSort sortLE ∧
      (concatOffsets (grouped_offsets m)).Perm (generated m) ∧
      (concatOffsets (grouped_offsets m)).Pairwise
        (fun a b => lengthSquared a ≤ lengthSquared b) ∧
      (∀ k : Int,
        (concatOffsets (grouped_offsets m)).filter (fun v => decide (lengthSquared v = k)) =
          (generated m).filter (fun v => decide (lengthSquared v = k))) ∧
      (generated m).Pairwise
        (fun a b => a.1 < b.1 ∨ (a.1 = b.1 ∧ a.2 < b.2)) := by
  refine ⟨concat_grouped_offsets m, ?_, ?_, ?_, generated_pairwise m⟩
  · rw [concat_grouped_offsets]; exact sortedVecs_perm m
  · rw [concat_grouped_offsets]
    exact (sortedVecs_pairwise m).imp sendBefore_key
  · intro k
    rw [concat_grouped_offsets]
    exact filter_key_sortedVecs m k

/-- C9: for two groups at positions `i < j` of the table, both are non-empty
and every `lengthSquared` of an offset of group `i` is less than or equal to every
`lengthSquared` of an offset of group `j`. -/
theorem keys_monotone (m i j : Nat) (hi : i < (grouped_offsets m).length)
    (hj : j < (grouped_offsets m).length) (hij : i < j) :
    ((grouped_offsets m).get ⟨i, hi⟩).offsets ≠ [] ∧
      ((grouped_offsets m).get ⟨j, hj⟩).offsets ≠ [] ∧
      ∀ a ∈ ((grouped_offsets m).get ⟨i, hi⟩).offsets,
        ∀ b ∈ ((grouped_offsets m).get ⟨j, hj⟩).offsets,
          lengthSquared a ≤ lengthSquared b := by
  refine ⟨nonEmpty_grouped_offsets m _ (List.get_mem _ _ _),
    nonEmpty_grouped_offsets m _ (List.get_mem _ _ _), ?_⟩
  intro a ha b hb
  have hp := List.pairwise_iff_getElem.mp (groups_pairwise m) i j hi hj hij
  exact sendBefore_key (hp a ha b hb)

theorem keys_monotone_witness :
    (1 < (grouped_offsets 2).length ∧ 2 < (grouped_offsets 2).length ∧ 1 < 2) ∧
      ∃ (hi : 1 < (grouped_offsets 2).length) (hj : 2 < (grouped_offsets 2).length),
        ((grouped_offsets 2).get ⟨1, hi⟩).offsets ≠ [] ∧
        ((grouped_offsets 2).get ⟨2, hj⟩).offsets ≠ [] ∧
        ∀ a ∈ ((grouped_offsets 2).get ⟨1, hi⟩).offsets,
          ∀ b ∈ ((grouped_offsets 2).get ⟨2, hj⟩).offsets,
            lengthSquared a ≤ lengthSquared b :=
  ⟨by decide, by decide, by decide, keys_monotone 2 1 2 (by decide) (by decide) (by decide)⟩

/-- C10: for `d ≤ m`, the sizes of the groups with distance `d` sum to `1`
when `d = 0` and to `(2d+1)² - (2d-1)²`, which is `8d`, when `d ≥ 1`. -/
theorem shell_size_law (m d : Nat) (hd : d ≤ m) :
    shellSize (grouped_offsets m) d =
        (if d = 0 then 1 else (2 * d + 1) ^ 2 - (2 * d - 1) ^ 2) ∧
      (1 ≤ d → shellSize (grouped_offsets m) d = 8 * d) := by
  rw [shellSize_grouped_offsets hd]
  constructor
  · cases d with
    | zero => rfl
    | succ d =>
      rw [if_neg (Nat.succ_ne_zero d), if_neg (Nat.succ_ne_zero d)]
      have e : (2 * (d + 1) + 1) ^ 2 = (2 * (d + 1) - 1) ^ 2 + 8 * (d + 1) := by
        have : 2 * (d + 1) - 1 = 2 * d + 1 := by omega
        rw [this]; ring
      omega
  · intro h1
    rw [if_neg (by omega)]

theorem shell_size_law_witness :
    2 ≤ 3 ∧ (shellSize (grouped_offsets 3) 2 =
        (if 2 = 0 then 1 else (2 * 2 + 1) ^ 2 - (2 * 2 - 1) ^ 2) ∧
      (1 ≤ 2 → shellSize (grouped_offsets 3) 2 = 8 * 2)) :=
  ⟨by decide, shell_size_law 3 2 (by decide)⟩

/-! ## The first group and positions in the table -/

theorem chebyshev_eq_zero {v : Int × Int} (h : chebyshev v = 0) : v = (0, 0) := by
  obtain ⟨x, z⟩ := v
  unfold chebyshev at h
  simp only at h
  exact Prod.ext (by simp only; omega) (by simp only; omega)

theorem concatOffsets_cons (g : OffsetGroup) (table : List OffsetGroup) :
    concatOffsets (g :: table) = g.offsets ++ concatOffsets table := by
  simp [concatOffsets, List.flatMap_cons]

/-- The table starts with the group of the centre, the only group with distance 0. -/
theorem grouped_offsets_head (m : Nat) :
    ∃ g rest, grouped_offsets m = g :: rest ∧ g.distance = 0 ∧ g.offsets = [(0, 0)] ∧
      ∀ h ∈ rest, h.distance ≠ 0 := by
  obtain ⟨tl, htl⟩ := sortedVecs_head m
  have hconcat := concat_grouped_offsets m
  have hnd := sortedVecs_nodup m
  have htags := tagsOk_grouped_offsets m
  have hne := nonEmpty_grouped_offsets m
  cases hT : grouped_offsets m with
  | nil =>
    rw [hT] at hconcat
    rw [htl] at hconcat
    simp [concatOffsets] at hconcat
  | cons g rest =>
    rw [hT] at hconcat htags hne
    rw [← hconcat, concatOffsets_cons] at hnd
    rw [concatOffsets_cons, htl] at hconcat
    have hgne := hne g (List.mem_cons_self _ _)
    cases hgo : g.offsets with
    | nil => exact absurd hgo hgne
    | cons v os =>
      rw [hgo] at hconcat hnd
      have hv : v = (0, 0) := by
        simp only [List.cons_append, List.cons.injEq] at hconcat
        exact hconcat.1
      subst hv
      have hgd : g.distance = 0 := by
        rw [← htags g (List.mem_cons_self _ _) (0, 0) (by rw [hgo]; exact List.mem_cons_self _ _)]
        rfl
      have hnotmem : ∀ w, chebyshev w = 0 → w ∉ os ++ concatOffsets rest := by
        intro w hw hmem
        rw [chebyshev_eq_zero hw] at hmem
        simp only [List.cons_append, List.nodup_cons] at hnd
        exact hnd.1 hmem
      refine ⟨g, rest, rfl, hgd, ?_, ?_⟩
      · cases hos : os with
        | nil => rw [hgo, hos]
        | cons w os' =>
          exfalso
          have hw : chebyshev w = 0 := by
            rw [htags g (List.mem_cons_self _ _) w (by rw [hgo, hos]; simp), hgd]
          exact hnotmem w hw (by rw [hos]; simp)
      · intro h hh hhd
        obtain ⟨w, hw⟩ := List.exists_mem_of_ne_nil _ (hne h (List.mem_cons_of_mem _ hh))
        have hwc : chebyshev w = 0 := by
          rw [htags h (List.mem_cons_of_mem _ hh) w hw, hhd]
        exact hnotmem w hwc
          (List.mem_append_right _ (mem_concatOffsets.mpr ⟨h, hh, hw⟩))

/-- An offset with a smaller key is in the same group or in an earlier one. -/
theorem pos_le_of_key_lt (m : Nat) {i j : Nat} (hi : i < (grouped_offsets m).length)
    (hj : j < (grouped_offsets m).length) {a b : Int × Int}
    (ha : a ∈ ((grouped_offsets m)[i]).offsets) (hb : b ∈ ((grouped_offsets m)[j]).offsets)
    (hab : lengthSquared a < lengthSquared b) : i ≤ j := by
  by_contra hlt
  push_neg at hlt
  have hp := List.pairwise_iff_getElem.mp (groups_pairwise m) j i hj hi hlt
  have := sendBefore_key (hp b hb a ha)
  omega

theorem exists_pos_of_mem {m : Nat} {v : Int × Int} (hv : v ∈ sortedVecs m) :
    ∃ (i : Nat) (hi : i < (grouped_offsets m).length),
      v ∈ ((grouped_offsets m)[i]).offsets ∧ ((grouped_offsets m)[i]).distance = chebyshev v := by
  rw [← concat_grouped_offsets] at hv
  obtain ⟨g, hg, hvg⟩ := mem_concatOffsets.mp hv
  obtain ⟨i, hi, hig⟩ := List.mem_iff_getElem.mp hg
  refine ⟨i, hi, by rw [hig]; exact hvg, ?_⟩
  rw [hig]
  exact (tagsOk_grouped_offsets m g hg v hvg).symm

theorem two_le_groupCount (table : List OffsetGroup) (d : Nat) {p k : Nat} (hpk : p < k)
    (hk : k < table.length) (hp : (table[p]).distance = d) (hkd : (table[k]).distance = d) :
    2 ≤ groupCount table d := by
  have hsplit : table = table.take k ++ table.drop k := (List.take_append_drop k table).symm
  have h1 : 0 < groupCount (table.take k) d := by
    refine List.countP_pos_iff.mpr ⟨table[p], ?_, by simpa using hp⟩
    rw [List.mem_take_iff_getElem]
    exact ⟨p, by omega, rfl⟩
  have h2 : 0 < groupCount (table.drop k) d := by
    refine List.countP_pos_iff.mpr ⟨table[k], ?_, by simpa using hkd⟩
    rw [List.mem_drop_iff_getElem]
    exact ⟨0, by omega, by simp⟩
  have h3 : groupCount table d = groupCount (table.take k) d + groupCount (table.drop k) d := by
    conv_lhs => rw [hsplit]
    unfold groupCount
    rw [List.countP_append]
  omega

/-- For `m ≥ 4` the group of `(4, 0)` lies strictly between the group of
`(3, 0)` and the group of `(3, 3)`, which both have distance 3. -/
theorem interleave_four {m : Nat} (hm : 4 ≤ m) :
    ∃ (p i k : Nat) (hp : p < (grouped_offsets m).length)
      (hi : i < (grouped_offsets m).length) (hk : k < (grouped_offsets m).length),
      p < i ∧ i < k ∧
      ((grouped_offsets m)[p]).distance = 3 ∧ ((grouped_offsets m)[k]).distance = 3 ∧
      ((grouped_offsets m)[i]).distance = 4 ∧
      ((4 : Int), (0 : Int)) ∈ ((grouped_offsets m)[i]).offsets ∧
      ((3 : Int), (3 : Int)) ∈ ((grouped_offsets m)[k]).offsets := by
  have hmem : ∀ v : Int × Int, chebyshev v ≤ 4 → v ∈ sortedVecs m := by
    intro v hv
    rw [mem_sortedVecs]
    rw [chebyshev_le_iff] at hv
    omega
  obtain ⟨p, hp, hpm, hpd⟩ := exists_pos_of_mem (hmem (3, 0) (by decide))
  obtain ⟨i, hi, him, hid⟩ := exists_pos_of_mem (hmem (4, 0) (by decide))
  obtain ⟨k, hk, hkm, hkd⟩ := exists_pos_of_mem (hmem (3, 3) (by decide))
  have e1 : chebyshev ((3 : Int), (0 : Int)) = 3 := by decide
  have e2 : chebyshev ((4 : Int), (0 : Int)) = 4 := by decide
  have e3 : chebyshev ((3 : Int), (3 : Int)) = 3 := by decide
  rw [e1] at hpd
  rw [e2] at hid
  rw [e3] at hkd
  have h1 := pos_le_of_key_lt m hp hi hpm him (by decide)
  have h2 := pos_le_of_key_lt m hi hk him hkm (by decide)
  have hne1 : p ≠ i := by
    rintro rfl
    omega
  have hne2 : i ≠ k := by
    rintro rfl
    omega
  exact ⟨p, i, k, hp, hi, hk, by omega, by omega, hpd, hkd, hid, him, hkm⟩

/-! ## Runs and indices of the groups -/

theorem adjacentOk_step (s : GroupState) (o : Offset) (hs : AdjacentOk s) (_ : True) :
    AdjacentOk (groupStep s o) := by
  unfold AdjacentOk at *
  by_cases h : s.group.distance = o.distance
  · rw [stateTable_step_same h]
    unfold stateTable at hs
    rw [List.chain'_append] at hs ⊢
    refine ⟨hs.1, List.chain'_singleton _, ?_⟩
    intro x hx y hy
    simp only [List.head?_cons, Option.mem_def, Option.some.injEq] at hy
    subst hy
    exact hs.2.2 x hx s.group (by simp)
  · rw [stateTable_step_diff h, List.chain'_append]
    refine ⟨hs, List.chain'_singleton _, ?_⟩
    intro x hx y hy
    simp only [List.head?_cons, Option.mem_def, Option.some.injEq] at hy
    subst hy
    have hx' : x = s.group := by
      simpa [stateTable, List.getLast?_append] using hx.symm
    rw [hx']
    exact h

theorem adjacentOk_grouped_offsets (m : Nat) :
    (grouped_offsets m).Chain' (fun g h => g.distance ≠ h.distance) := by
  rw [grouped_offsets_eq, groupLoop]
  refine foldl_groupStep_inv AdjacentOk (fun _ => True) adjacentOk_step _ _ ?_
    (fun _ _ => trivial)
  simp [AdjacentOk, stateTable, groupInit]

theorem indexOk_concat (l : List OffsetGroup) (a : OffsetGroup) :
    IndexOk (l ++ [a]) ↔ IndexOk l ∧ a.i = groupCount l a.distance := by
  constructor
  · intro h
    refine ⟨?_, h l a [] rfl⟩
    intro pre g post hl
    exact h pre g (post ++ [a]) (by rw [hl]; simp)
  · rintro ⟨hl, ha⟩ pre g post hsplit
    rcases List.eq_nil_or_concat post with hpost | ⟨post', b, hpost⟩
    · subst hpost
      have := List.append_inj' (by simpa using hsplit : l ++ [a] = pre ++ [g]) rfl
      obtain ⟨h1, h2⟩ := this
      simp only [List.cons.injEq, and_true] at h2
      subst h1 h2
      exact ha
    · subst hpost
      have h' : l ++ [a] = (pre ++ g :: post') ++ [b] := by
        rw [hsplit]; simp
      obtain ⟨h1, _⟩ := List.append_inj' h' rfl
      exact hl pre g post' h1

theorem indexOk_step (m : Nat) (s : GroupState) (o : Offset)
    (hs : IndexOk (stateTable s) ∧ CountsOk m s) (ho : o.distance ≤ m) :
    IndexOk (stateTable (groupStep s o)) ∧ CountsOk m (groupStep s o) := by
  refine ⟨?_, countsOk_step m s o hs.2 ho⟩
  obtain ⟨hidx, hcnt⟩ := hs
  by_cases h : s.group.distance = o.distance
  · rw [stateTable_step_same h, indexOk_concat]
    unfold stateTable at hidx
    rw [indexOk_concat] at hidx
    exact ⟨hidx.1, hidx.2⟩
  · rw [stateTable_step_diff h, indexOk_concat]
    exact ⟨hidx, hcnt.2 o.distance ho⟩

theorem indexOk_grouped_offsets (m : Nat) : IndexOk (grouped_offsets m) := by
  have h : IndexOk (stateTable (groupLoop m)) ∧ CountsOk m (groupLoop m) := by
    rw [groupLoop]
    refine foldl_groupStep_inv (fun s => IndexOk (stateTable s) ∧ CountsOk m s)
      (fun o => o.distance ≤ m) (indexOk_step m) _ _ ?_ ?_
    · refine ⟨?_, ?_⟩
      · have : stateTable (groupInit m) = [] ++ [{ distance := 0, i := 0, offsets := [] }] := rfl
        rw [this, indexOk_concat]
        refine ⟨?_, rfl⟩
        intro pre g post hsplit
        simp at hsplit
      · refine ⟨by simp [groupInit], ?_⟩
        intro d hd
        cases d with
        | zero => simp [groupInit, groupCount, stateTable]
        | succ d =>
          have hd' : d < m := hd
          simp [groupInit, groupCount, stateTable, List.getD_eq_getElem?_getD,
            List.getElem?_replicate, hd']
    · intro o ho
      simp only [offsets, List.mem_map] at ho
      obtain ⟨v, hv, rfl⟩ := ho
      exact chebyshev_le_of_mem hv
  exact h.1

theorem index_lt_groupCount {l : List OffsetGroup} (hl : IndexOk l) {x : OffsetGroup}
    (hx : x ∈ l) : x.i < groupCount l x.distance := by
  obtain ⟨pre, post, hsplit⟩ := List.append_of_mem hx
  rw [hl pre x post hsplit, hsplit]
  simp [groupCount, List.countP_append, List.countP_cons]

theorem pairs_distinct :
    ∀ (table : List OffsetGroup), IndexOk table →
      table.Pairwise (fun g h => (g.distance, g.i) ≠ (h.distance, h.i)) := by
  intro table
  induction table using List.reverseRecOn with
  | nil => intro _; exact List.Pairwise.nil
  | append_singleton l a ih =>
    intro h
    rw [indexOk_concat] at h
    rw [List.pairwise_append]
    refine ⟨ih h.1, List.pairwise_singleton _ _, ?_⟩
    intro x hx y hy heq
    rw [List.mem_singleton] at hy
    subst hy
    simp only [Prod.mk.injEq] at heq
    have := index_lt_groupCount h.1 hx
    rw [heq.1, ← h.2, heq.2] at this
    exact lt_irrefl _ this

/-! ## The names of the groups -/

theorem decimal_ne_nil (n : Nat) : decimal n ≠ [] := by
  rw [decimal]
  split <;> simp

theorem digitChar_injective {a b : Nat} (ha : a < 10) (hb : b < 10)
    (h : Nat.digitChar a = Nat.digitChar b) : a = b := by
  interval_cases a <;> interval_cases b <;> first | rfl | (exact absurd h (by decide))

theorem digitChar_ne_underscore {a : Nat} (ha : a < 10) : Nat.digitChar a ≠ '_' := by
  interval_cases a <;> decide

theorem decimal_injective : ∀ (n m : Nat), decimal n = decimal m → n = m := by
  intro n
  induction n using Nat.strong_induction_on with
  | _ n ih =>
    intro m h
    rw [decimal, decimal.eq_1 m] at h
    by_cases hn : n < 10
    · by_cases hm : m < 10
      · rw [if_pos hn, if_pos hm] at h
        exact digitChar_injective hn hm (by simpa using h)
      · rw [if_pos hn, if_neg hm] at h
        have := congrArg List.length h
        have hlen : 0 < (decimal (m / 10)).length :=
          List.length_pos.mpr (decimal_ne_nil _)
        simp only [List.length_singleton, List.length_append] at this
        omega
    · by_cases hm : m < 10
      · rw [if_neg hn, if_pos hm] at h
        have := congrArg List.length h
        have hlen : 0 < (decimal (n / 10)).length :=
          List.length_pos.mpr (decimal_ne_nil _)
        simp only [List.length_singleton, List.length_append] at this
        omega
      · rw [if_neg hn, if_neg hm] at h
        obtain ⟨h1, h2⟩ := List.append_inj' h rfl
        have e1 := ih (n / 10) (by omega) (m / 10) h1
        have e2 := digitChar_injective (Nat.mod_lt _ (by decide)) (Nat.mod_lt _ (by decide))
          (by simpa using h2)
        omega

theorem underscore_not_mem_decimal : ∀ (n : Nat), '_' ∉ decimal n := by
  intro n
  induction n using Nat.strong_induction_on with
  | _ n ih =>
    rw [decimal]
    by_cases hn : n < 10
    · rw [if_pos hn]
      simp only [List.mem_singleton]
      exact fun h => digitChar_ne_underscore hn h.symm
    · rw [if_neg hn]
      simp only [List.mem_append, List.mem_singleton, not_or]
      exact ⟨ih (n / 10) (by omega),
        fun h => digitChar_ne_underscore (Nat.mod_lt _ (by decide)) h.symm⟩

theorem toDigitsCore_eq_decimal :
    ∀ (fuel n : Nat) (ds : List Char), n < fuel →
      Nat.toDigitsCore 10 fuel n ds = decimal n ++ ds := by
  intro fuel
  induction fuel with
  | zero => intro n ds h; omega
  | succ fuel ih =>
    intro n ds h
    rw [Nat.toDigitsCore, decimal]
    by_cases hn : n / 10 = 0
    · have hlt : n < 10 := by omega
      rw [if_pos hn, if_pos hlt, Nat.mod_eq_of_lt hlt]
      rfl
    · have hlt : ¬ n < 10 := by omega
      rw [if_neg hn, if_neg hlt, ih (n / 10) _ (by omega), List.append_assoc]
      rfl

theorem toString_data (n : Nat) : (toString n).data = decimal n := by
  have h := toDigitsCore_eq_decimal (n + 1) n [] (Nat.lt_succ_self n)
  rw [List.append_nil] at h
  rw [← h]
  rfl

theorem append_sep_inj {c : Char} :
    ∀ (a a' b b' : List Char), c ∉ a → c ∉ a' → a ++ c :: b = a' ++ c :: b' → a = a' ∧ b = b'
  | [], [], b, b', _, _, h => by simpa using h
  | [], x :: a', b, b', _, h2, h => by
    simp only [List.nil_append, List.cons_append, List.cons.injEq] at h
    exact absurd (by rw [h.1]; exact List.mem_cons_self _ _) h2
  | x :: a, [], b, b', h1, _, h => by
    simp only [List.nil_append, List.cons_append, List.cons.injEq] at h
    exact absurd (by rw [← h.1]; exact List.mem_cons_self _ _) h1
  | x :: a, y :: a', b, b', h1, h2, h => by
    simp only [List.cons_append, List.cons.injEq] at h
    obtain ⟨h3, h4⟩ := append_sep_inj a a' b b'
      (fun hc => h1 (List.mem_cons_of_mem _ hc)) (fun hc => h2 (List.mem_cons_of_mem _ hc)) h.2
    exact ⟨by rw [h.1, h3], h4⟩

theorem getVarName_injective {g h : OffsetGroup} (e : getVarName g = getVarName h) :
    g.distance = h.distance ∧ g.i = h.i := by
  have e' := congrArg String.data e
  simp only [getVarName, String.data_append, toString_data, List.append_assoc] at e'
  have e2 := List.append_cancel_left e'
  rw [List.singleton_append, List.singleton_append] at e2
  obtain ⟨h1, h2⟩ := append_sep_inj _ _ _ _ (underscore_not_mem_decimal _)
    (underscore_not_mem_decimal _) e2
  exact ⟨decimal_injective _ _ h1, decimal_injective _ _ h2⟩

/-! ## The query at radius 0 -/

theorem queryLoop_first_entry (overflowChecks : Bool) (origin : ChunkPosition)
    (isPresent : ChunkPosition → Bool) (rest : List (Nat × List (Int × Int))) :
    (queryLoop overflowChecks 0 origin isPresent ((0, [(0, 0)]) :: rest) [] 1).result =
        .ok (if isPresent origin then [] else [origin]) ∧
      (queryLoop overflowChecks 0 origin isPresent ((0, [(0, 0)]) :: rest) [] 1).examined = 1 := by
  have hfit : FitsI32 origin (0, 0) := by
    have hx := origin.x_i32
    have hz := origin.z_i32
    unfold FitsI32
    simpa using And.intro hx hz
  have horigin : chunkWrap origin (0, 0) = origin :=
    chunkPosition_ext (by rw [(chunkWrap_of_fits hfit).1]; simp)
      (by rw [(chunkWrap_of_fits hfit).2]; simp)
  have hpush := pushChunks_eq overflowChecks origin isPresent [(0, 0)] []
    (Or.inr (by
      intro v hv
      rw [List.mem_singleton] at hv
      rw [hv]
      exact hfit))
  rw [List.map_singleton, horigin] at hpush
  unfold queryLoop
  simp only [le_refl, if_true, Nat.one_ne_zero, if_false, Nat.sub_self, hpush]
  cases h : isPresent origin <;> simp [h]

theorem OFFSETS_head (m : Nat) :
    ∃ rest, OFFSETS m = (0, [(0, 0)]) :: rest ∧ (∀ e ∈ rest, e.1 ≠ 0) ∧
      (GROUPS m)[0]? = some 1 := by
  obtain ⟨g, rest, hT, hgd, hgo, hrest⟩ := grouped_offsets_head m
  refine ⟨rest.map (fun g => (g.distance, g.offsets)), ?_, ?_, ?_⟩
  · unfold OFFSETS
    rw [hT, List.map_cons, hgd, hgo]
  · intro e he
    obtain ⟨h, hh, rfl⟩ := List.mem_map.mp he
    exact hrest h hh
  · rw [GROUPS_getElem? (Nat.zero_le m), hT]
    have : rest.countP (fun g => decide (g.distance = 0)) = 0 := by
      rw [List.countP_eq_zero]
      intro h hh
      simpa using hrest h hh
    simp [groupCount, List.countP_cons, hgd, this]

/-! ## The claims about the scenarios, the errors and the interleaving -/

/-- C11: with the tables built for `maxRenderDistance = 2`, the query with
`render_distance = 1`, offset `(10, 10)` and only `(10, 10)` loaded returns
`(9,10), (10,9), (10,11), (11,10), (9,9), (9,11), (11,9), (11,11)` in this order,
with overflow checks and without them. -/
theorem scenario_radius_one :
    get_chunks_to_load true 2 1 tenTen (fun c => decide (c = tenTen)) =
        .ok [ChunkPosition.mk 9 10 (by decide) (by decide),
          ChunkPosition.mk 10 9 (by decide) (by decide),
          ChunkPosition.mk 10 11 (by decide) (by decide),
          ChunkPosition.mk 11 10 (by decide) (by decide),
          ChunkPosition.mk 9 9 (by decide) (by decide),
          ChunkPosition.mk 9 11 (by decide) (by decide),
          ChunkPosition.mk 11 9 (by decide) (by decide),
          ChunkPosition.mk 11 11 (by decide) (by decide)] ∧
      get_chunks_to_load false 2 1 tenTen (fun c => decide (c = tenTen)) =
        .ok [ChunkPosition.mk 9 10 (by decide) (by decide),
          ChunkPosition.mk 10 9 (by decide) (by decide),
          ChunkPosition.mk 10 11 (by decide) (by decide),
          ChunkPosition.mk 11 10 (by decide) (by decide),
          ChunkPosition.mk 9 9 (by decide) (by decide),
          ChunkPosition.mk 9 11 (by decide) (by decide),
          ChunkPosition.mk 11 9 (by decide) (by decide),
          ChunkPosition.mk 11 11 (by decide) (by decide)] ∧
      tenTen.x = 10 ∧ tenTen.z = 10 :=
  ⟨rfl, rfl, rfl, rfl⟩

/-- C12, the claim at the origin `(2147483647, 0)` with `m = 2`, `R = 1`,
nothing present and overflow checks: `R ≤ m`, and the query does not return a
list: it panics at the addition `offset.x + 1`. -/
theorem query_range_check_at_edge :
    1 ≤ 2 ∧
      get_chunks_to_load true 2 1 edgeOrigin (fun _ => false) = .error .addOverflow ∧
      ¬ ∃ cells, get_chunks_to_load true 2 1 edgeOrigin (fun _ => false) = .ok cells := by
  have h1 : get_chunks_to_load true 2 1 edgeOrigin (fun _ => false) = .error .addOverflow :=
    rfl
  refine ⟨by decide, h1, ?_⟩
  rintro ⟨cells, hc⟩
  rw [h1] at hc
  cases hc

/-- C12, amended: the query stops at its assertion exactly when
`render_distance` is greater than `m`; the error carries no cells.  For
`render_distance ≤ m` it returns a list when overflow checks are off or the square
of radius `render_distance` around the origin lies within the `i32` coordinates;
in any case, for `render_distance ≤ m` it returns a list or panics at an addition
of coordinates, again without cells. -/
theorem query_range_check (overflowChecks : Bool) (m R : Nat) (origin : ChunkPosition)
    (isPresent : ChunkPosition → Bool) :
    (get_chunks_to_load overflowChecks m R origin isPresent =
          .error .renderDistanceTooLarge ↔ m < R) ∧
      (R ≤ m → (overflowChecks = false ∨ InRange origin R) →
        ∃ cells, get_chunks_to_load overflowChecks m R origin isPresent = .ok cells) ∧
      (R ≤ m →
        (∃ cells, get_chunks_to_load overflowChecks m R origin isPresent = .ok cells) ∨
          get_chunks_to_load overflowChecks m R origin isPresent = .error .addOverflow) := by
  have hbig : m < R → get_chunks_to_load overflowChecks m R origin isPresent =
      .error .renderDistanceTooLarge := by
    intro h
    unfold get_chunks_to_load
    rw [if_neg (by omega)]
  have hcases : R ≤ m →
      (∃ cells, get_chunks_to_load overflowChecks m R origin isPresent = .ok cells) ∨
        get_chunks_to_load overflowChecks m R origin isPresent = .error .addOverflow := by
    intro hR
    unfold get_chunks_to_load
    rw [if_pos hR, GROUPS_getElem? hR]
    simp only
    exact queryLoop_result_cases overflowChecks R origin isPresent _ _ _
      (by rw [entryCount_OFFSETS])
  refine ⟨⟨?_, hbig⟩, fun hR h => ⟨_, get_chunks_to_load_eq hR origin isPresent h⟩, hcases⟩
  intro he
  by_contra hle
  push_neg at hle
  rcases hcases hle with ⟨cells, hc⟩ | hc
  · rw [hc] at he
    cases he
  · rw [hc] at he
    cases he

theorem query_range_check_witness :
    ((2 < 3 ∧ get_chunks_to_load true 2 3 tenTen (fun _ => false) =
          .error .renderDistanceTooLarge) ∧
        (1 ≤ 2 ∧ (true = false ∨ InRange tenTen 1))) ∧
      ∃ cells, get_chunks_to_load true 2 1 tenTen (fun _ => false) = .ok cells :=
  ⟨⟨⟨by decide, (query_range_check true 2 3 tenTen (fun _ => false)).1.mpr (by decide)⟩,
      by decide, Or.inr (by decide)⟩,
    (query_range_check true 2 1 tenTen (fun _ => false)).2.1 (by decide)
      (Or.inr (by decide))⟩

/-- C14: the table starts with the entry `(0, [(0, 0)])`, the only entry with
distance 0, and `GROUPS[0]` is 1; the query with `render_distance = 0` examines one
entry, whatever follows it in the table, and returns `[origin]` when the origin is
not present and the empty list when it is, with overflow checks and without
them. -/
theorem query_radius_zero (overflowChecks : Bool) (m : Nat) (origin : ChunkPosition)
    (isPresent : ChunkPosition → Bool) :
    ∃ rest, OFFSETS m = (0, [(0, 0)]) :: rest ∧ (∀ e ∈ rest, e.1 ≠ 0) ∧
      (GROUPS m)[0]? = some 1 ∧
      (queryLoop overflowChecks 0 origin isPresent (OFFSETS m) [] 1).examined = 1 ∧
      get_chunks_to_load overflowChecks m 0 origin isPresent =
        .ok (if isPresent origin then [] else [origin]) ∧
      ∀ rest', (queryLoop overflowChecks 0 origin isPresent ((0, [(0, 0)]) :: rest') [] 1).result
            = .ok (if isPresent origin then [] else [origin]) ∧
          (queryLoop overflowChecks 0 origin isPresent ((0, [(0, 0)]) :: rest') [] 1).examined
            = 1 := by
  obtain ⟨rest, hT, hrest, hG⟩ := OFFSETS_head m
  refine ⟨rest, hT, hrest, hG, ?_, ?_, queryLoop_first_entry overflowChecks origin isPresent⟩
  · rw [hT]
    exact (queryLoop_first_entry overflowChecks origin isPresent rest).2
  · unfold get_chunks_to_load
    rw [if_pos (Nat.zero_le m), hG]
    simp only
    rw [hT]
    exact (queryLoop_first_entry overflowChecks origin isPresent rest).1

/-- C15: for `m ≥ 4` the group that contains `(4, 0)` is at a strictly
smaller position than the last group with distance 3, and `distance_group_counts[3]`
is at least 2. -/
theorem interleaving_at_four (m : Nat) (hm : 4 ≤ m) :
    ∃ (i j c : Nat) (hi : i < (grouped_offsets m).length),
      ((4 : Int), (0 : Int)) ∈ ((grouped_offsets m).get ⟨i, hi⟩).offsets ∧
      lastGroupPos (grouped_offsets m) 3 = some j ∧ i < j ∧
      (distance_group_counts m)[3]? = some c ∧ 2 ≤ c := by
  obtain ⟨p, i, k, hp, hi, hk, hpi, hik, hpd, hkd, _, him, _⟩ := interleave_four hm
  obtain ⟨j, hj, hkj⟩ := lastGroupPos_ge (grouped_offsets m) 3 k hk (by simpa using hkd)
  refine ⟨i, j, groupCount (grouped_offsets m) 3, hi, by simpa using him, hj, by omega,
    GROUPS_getElem? (by omega), ?_⟩
  exact two_le_groupCount _ 3 (by omega : p < k) hk hpd hkd

theorem interleaving_at_four_witness :
    4 ≤ 4 ∧ ∃ (i j c : Nat) (hi : i < (grouped_offsets 4).length),
      ((4 : Int), (0 : Int)) ∈ ((grouped_offsets 4).get ⟨i, hi⟩).offsets ∧
      lastGroupPos (grouped_offsets 4) 3 = some j ∧ i < j ∧
      (distance_group_counts 4)[3]? = some c ∧ 2 ≤ c :=
  ⟨by decide, interleaving_at_four 4 (by decide)⟩

set_option maxRecDepth 100000 in
/-- C16, the claim at `m = 3`: the table for `m = 3` has one group per
distance, so no distance has more than one group. -/
theorem no_interleaving_at_three :
    3 ≤ 3 ∧ distance_group_counts 3 = [1, 1, 1, 1] ∧
      ¬ ∃ d c : Nat, (distance_group_counts 3)[d]? = some c ∧ 1 < c := by
  have h : distance_group_counts 3 = [1, 1, 1, 1] := by decide
  refine ⟨by decide, h, ?_⟩
  rw [h]
  rintro ⟨d, c, hd, hc⟩
  rcases d with _ | _ | _ | _ | d <;> simp at hd <;> omega

/-- C16, amended: for `m ≥ 4` the axis-aligned offset `(4, 0)` of distance 4 is
in a group placed before the group of the diagonal offset `(3, 3)` of distance 3,
and a distance (here 3) has more than one group. -/
theorem interleaving_from_four (m : Nat) (hm : 4 ≤ m) :
    ∃ (a b : Int × Int) (i j : Nat) (hi : i < (grouped_offsets m).length)
      (hj : j < (grouped_offsets m).length),
      a.2 = 0 ∧ b.1.natAbs = b.2.natAbs ∧ chebyshev b < chebyshev a ∧ i < j ∧
      a ∈ ((grouped_offsets m).get ⟨i, hi⟩).offsets ∧
      b ∈ ((grouped_offsets m).get ⟨j, hj⟩).offsets ∧
      ∃ d c : Nat, (distance_group_counts m)[d]? = some c ∧ 1 < c := by
  obtain ⟨p, i, k, hp, hi, hk, hpi, hik, hpd, hkd, _, him, hkm⟩ := interleave_four hm
  refine ⟨(4, 0), (3, 3), i, k, hi, hk, rfl, rfl, by decide, hik, by simpa using him,
    by simpa using hkm, 3, groupCount (grouped_offsets m) 3, GROUPS_getElem? (by omega), ?_⟩
  have := two_le_groupCount _ 3 (by omega : p < k) hk hpd hkd
  omega

theorem interleaving_from_four_witness :
    4 ≤ 5 ∧ ∃ (a b : Int × Int) (i j : Nat) (hi : i < (grouped_offsets 5).length)
      (hj : j < (grouped_offsets 5).length),
      a.2 = 0 ∧ b.1.natAbs = b.2.natAbs ∧ chebyshev b < chebyshev a ∧ i < j ∧
      a ∈ ((grouped_offsets 5).get ⟨i, hi⟩).offsets ∧
      b ∈ ((grouped_offsets 5).get ⟨j, hj⟩).offsets ∧
      ∃ d c : Nat, (distance_group_counts 5)[d]? = some c ∧ 1 < c :=
  ⟨by decide, interleaving_from_four 5 (by decide)⟩

/-- C19: every group of the table is non-empty, two groups next to each other
have different distances, every offset of a group has the group's distance, and
the groups read one after the other are the sorted sequence: the groups are the
maximal runs of equal distance of the sorted sequence. -/
theorem groups_are_maximal_runs (m : Nat) :
    (∀ g ∈ grouped_offsets m, g.offsets ≠ []) ∧
      (grouped_offsets m).Chain' (fun g h => g.distance ≠ h.distance) ∧
      (∀ g ∈ grouped_offsets m, ∀ v ∈ g.offsets,
        max v.1.natAbs v.2.natAbs = g.distance) ∧
      concatOffsets (grouped_offsets m) = (generated m).insertionSort sortLE :=
  ⟨nonEmpty_grouped_offsets m, adjacentOk_grouped_offsets m, tagsOk_grouped_offsets m,
    concat_grouped_offsets m⟩

/-- C20: the field `i` of the group at position `k` is the number of groups
with the same distance at the positions before `k`; hence the pairs
`(distance, i)` of two groups at different positions differ, and so do their names
`OFFSETS_D{distance}_{i}`. -/
theorem group_index_counts_earlier (m : Nat) :
    (∀ k (hk : k < (grouped_offsets m).length),
        ((grouped_offsets m).get ⟨k, hk⟩).i =
          ((grouped_offsets m).take k).countP
            (fun g => decide (g.distance = ((grouped_offsets m).get ⟨k, hk⟩).distance))) ∧
      (grouped_offsets m).Pairwise (fun g h => (g.distance, g.i) ≠ (h.distance, h.i)) ∧
      (grouped_offsets m).Pairwise (fun g h => getVarName g ≠ getVarName h) := by
  have hidx := indexOk_grouped_offsets m
  have hpairs := pairs_distinct _ hidx
  refine ⟨?_, hpairs, hpairs.imp ?_⟩
  · intro k hk
    have hsplit : grouped_offsets m =
        (grouped_offsets m).take k ++
          (grouped_offsets m)[k] :: (grouped_offsets m).drop (k + 1) := by
      rw [List.getElem_cons_drop, List.take_append_drop]
    exact hidx _ _ _ hsplit
  · intro g h hne hname
    obtain ⟨h1, h2⟩ := getVarName_injective hname
    exact hne (by rw [h1, h2])

/-- C13, the claim at `maxRenderDistance = -1`: the script raises no error; it
produces a table with one empty group of distance 0 and a counts array that holds
`NaN`. -/
theorem build_minus_one :
    (-1 : Int) < 0 ∧
      buildTables (-1) = .ok ([{ distance := 0, i := 0, offsets := [] }], [JsCount.nan]) ∧
      ¬ ∃ e, buildTables (-1) = .error e := by
  refine ⟨by decide, rfl, ?_⟩
  rintro ⟨e, he⟩
  cases he

/-- C13, amended: for every `maxRenderDistance ≤ -2` the script stops with the
`RangeError` of `new Array(maxRenderDistance + 1)` and produces neither a table nor
a counts array. -/
theorem build_below_minus_one (maxRenderDistance : Int) (h : maxRenderDistance ≤ -2) :
    buildTables maxRenderDistance = .error .invalidArrayLength := by
  unfold buildTables
  rw [if_pos (by omega)]

theorem build_below_minus_one_witness :
    (-2 : Int) ≤ -2 ∧ buildTables (-2) = .error .invalidArrayLength :=
  ⟨by decide, build_below_minus_one (-2) (by decide)⟩

/-! ## The entries the loop examines -/

/-- What follows the entries the loop has examined does not matter: the loop ends
the same way on the examined entries followed by any other entries. -/
theorem queryLoop_take_examined (overflowChecks : Bool) (R : Nat) (offset : ChunkPosition)
    (loaded : ChunkPosition → Bool) (tail : List (Nat × List (Int × Int))) :
    ∀ (table : List (Nat × List (Int × Int))) (chunks : List ChunkPosition),
      0 < entryCount R table →
      queryLoop overflowChecks R offset loaded
          (table.take (queryLoop overflowChecks R offset loaded table chunks
            (entryCount R table)).examined ++ tail) chunks (entryCount R table) =
        queryLoop overflowChecks R offset loaded table chunks (entryCount R table)
  | [], _, h => by simp [entryCount] at h
  | (d, off) :: rest, chunks, h => by
    have hone : List.take 1 ((d, off) :: rest) ++ tail = (d, off) :: tail := by simp
    have hsucc : ∀ e, List.take (e + 1) ((d, off) :: rest) ++ tail =
        (d, off) :: (List.take e rest ++ tail) := by
      intro e
      rw [List.take_succ_cons, List.cons_append]
    by_cases heq : d = R
    · have hcnt : entryCount R ((d, off) :: rest) = entryCount R rest + 1 := by
        simp [entryCount, List.countP_cons, heq]
      rw [hcnt]
      rcases pushChunks_cases overflowChecks offset loaded off chunks with ⟨cs, hcs⟩ | herr
      · by_cases hz : entryCount R rest = 0
        · have hout : queryLoop overflowChecks R offset loaded ((d, off) :: rest) chunks
              (entryCount R rest + 1) = { result := .ok cs, examined := 1 } := by
            rw [queryLoop, if_pos (le_of_eq heq), if_pos heq, if_neg (Nat.succ_ne_zero _), hcs]
            simp only [Nat.add_sub_cancel]
            rw [if_pos hz]
          rw [hout]
          simp only
          rw [hone, queryLoop, if_pos (le_of_eq heq), if_pos heq, if_neg (Nat.succ_ne_zero _),
            hcs]
          simp only [Nat.add_sub_cancel]
          rw [if_pos hz]
        · have ih := queryLoop_take_examined overflowChecks R offset loaded tail rest cs
            (Nat.pos_of_ne_zero hz)
          have hout : queryLoop overflowChecks R offset loaded ((d, off) :: rest) chunks
              (entryCount R rest + 1) =
              { result := (queryLoop overflowChecks R offset loaded rest cs
                  (entryCount R rest)).result
                examined := (queryLoop overflowChecks R offset loaded rest cs
                  (entryCount R rest)).examined + 1 } := by
            rw [queryLoop, if_pos (le_of_eq heq), if_pos heq, if_neg (Nat.succ_ne_zero _), hcs]
            simp only [Nat.add_sub_cancel]
            rw [if_neg hz]
          rw [hout]
          simp only
          rw [hsucc, queryLoop, if_pos (le_of_eq heq), if_pos heq,
            if_neg (Nat.succ_ne_zero _), hcs]
          simp only [Nat.add_sub_cancel]
          rw [if_neg hz, ih]
      · have hout : queryLoop overflowChecks R offset loaded ((d, off) :: rest) chunks
            (entryCount R rest + 1) = { result := .error .addOverflow, examined := 1 } := by
          rw [queryLoop, if_pos (le_of_eq heq), if_pos heq, if_neg (Nat.succ_ne_zero _), herr]
        rw [hout]
        simp only
        rw [hone, queryLoop, if_pos (le_of_eq heq), if_pos heq, if_neg (Nat.succ_ne_zero _),
          herr]
    · have hcnt : entryCount R ((d, off) :: rest) = entryCount R rest := by
        simp [entryCount, List.countP_cons, heq]
      rw [hcnt] at h ⊢
      have hne := Nat.ne_of_gt h
      by_cases hle : d ≤ R
      · rcases pushChunks_cases overflowChecks offset loaded off chunks with ⟨cs, hcs⟩ | herr
        · have ih := queryLoop_take_examined overflowChecks R offset loaded tail rest cs h
          have hout : queryLoop overflowChecks R offset loaded ((d, off) :: rest) chunks
              (entryCount R rest) =
              { result := (queryLoop overflowChecks R offset loaded rest cs
                  (entryCount R rest)).result
                examined := (queryLoop overflowChecks R offset loaded rest cs
                  (entryCount R rest)).examined + 1 } := by
            rw [queryLoop, if_pos hle, if_neg heq, hcs]
            simp only
            rw [if_neg hne]
          rw [hout]
          simp only
          rw [hsucc, queryLoop, if_pos hle, if_neg heq, hcs]
          simp only
          rw [if_neg hne, ih]
        · have hout : queryLoop overflowChecks R offset loaded ((d, off) :: rest) chunks
              (entryCount R rest) = { result := .error .addOverflow, examined := 1 } := by
            rw [queryLoop, if_pos hle, if_neg heq, herr]
          rw [hout]
          simp only
          rw [hone, queryLoop, if_pos hle, if_neg heq, herr]
      · have ih := queryLoop_take_examined overflowChecks R offset loaded tail rest chunks h
        have hout : queryLoop overflowChecks R offset loaded ((d, off) :: rest) chunks
            (entryCount R rest) =
            { result := (queryLoop overflowChecks R offset loaded rest chunks
                (entryCount R rest)).result
              examined := (queryLoop overflowChecks R offset loaded rest chunks
                (entryCount R rest)).examined + 1 } := by
          rw [queryLoop, if_neg hle, if_neg hne]
        rw [hout]
        simp only
        rw [hsucc, queryLoop, if_neg hle, if_neg hne, ih]

/-! ## The extent of the scan and the countdown -/

theorem lastGroupPos_none_of_count {table : List OffsetGroup} {d : Nat}
    (h : groupCount table d = 0) : lastGroupPos table d = none := by
  cases hpos : lastGroupPos table d with
  | none => rfl
  | some j =>
    exfalso
    obtain ⟨hj, hjd, _⟩ := lastGroupPos_some table d j hpos
    have : 0 < groupCount table d :=
      List.countP_pos_iff.mpr ⟨table.get ⟨j, hj⟩, List.get_mem _ _ _, by simpa using hjd⟩
    omega

/-- The number of entries the loop examines when no addition panics: it stops
right after the last entry with distance `R`. -/
theorem queryLoop_examined (overflowChecks : Bool) (R : Nat) (offset : ChunkPosition)
    (loaded : ChunkPosition → Bool) :
    ∀ (table : List OffsetGroup) (chunks : List ChunkPosition),
      0 < groupCount table R →
      NoPanic overflowChecks R offset (table.map (fun g => (g.distance, g.offsets))) →
      ∃ j, lastGroupPos table R = some j ∧
        (queryLoop overflowChecks R offset loaded
          (table.map (fun g => (g.distance, g.offsets))) chunks
          (groupCount table R)).examined = j + 1
  | [], _, h, _ => by simp [groupCount] at h
  | g :: rest, chunks, h, hnp => by
    rw [List.map_cons] at hnp ⊢
    have hnp' := noPanic_tail hnp
    by_cases heq : g.distance = R
    · have hpush := pushChunks_eq overflowChecks offset loaded g.offsets chunks
        (noPanic_head hnp (le_of_eq heq))
      have hcnt : groupCount (g :: rest) R = groupCount rest R + 1 := by
        simp [groupCount, List.countP_cons, heq]
      rw [hcnt, queryLoop, if_pos (le_of_eq heq), if_pos heq, if_neg (Nat.succ_ne_zero _), hpush]
      simp only [Nat.add_sub_cancel]
      by_cases hz : groupCount rest R = 0
      · rw [if_pos hz]
        exact ⟨0, by simp [lastGroupPos, lastGroupPos_none_of_count hz, heq], rfl⟩
      · obtain ⟨j, hj, hex⟩ := queryLoop_examined overflowChecks R offset loaded rest
          (chunks ++ (g.offsets.map (chunkWrap offset)).filter (fun c => !loaded c))
          (Nat.pos_of_ne_zero hz) hnp'
        rw [if_neg hz]
        simp only
        rw [hex]
        exact ⟨j + 1, by simp [lastGroupPos, hj], rfl⟩
    · have hcnt : groupCount (g :: rest) R = groupCount rest R := by
        simp [groupCount, List.countP_cons, heq]
      rw [hcnt] at h ⊢
      by_cases hle : g.distance ≤ R
      · have hpush := pushChunks_eq overflowChecks offset loaded g.offsets chunks
          (noPanic_head hnp hle)
        obtain ⟨j, hj, hex⟩ := queryLoop_examined overflowChecks R offset loaded rest
          (chunks ++ (g.offsets.map (chunkWrap offset)).filter (fun c => !loaded c)) h hnp'
        rw [queryLoop, if_pos hle, if_neg heq, hpush]
        simp only
        rw [if_neg (Nat.ne_of_gt h)]
        simp only
        rw [hex]
        exact ⟨j + 1, by simp [lastGroupPos, hj], rfl⟩
      · obtain ⟨j, hj, hex⟩ := queryLoop_examined overflowChecks R offset loaded rest chunks
          h hnp'
        rw [queryLoop, if_neg hle, if_neg (Nat.ne_of_gt h)]
        simp only
        rw [hex]
        exact ⟨j + 1, by simp [lastGroupPos, hj], rfl⟩

theorem countdownValues_pos (R : Nat) :
    ∀ (table : List (Nat × List (Int × Int))) (counter : Nat),
      entryCount R table ≤ counter → ∀ v ∈ countdownValues R table counter, 1 ≤ v
  | [], _, _, v, hv => by simp [countdownValues] at hv
  | (d, off) :: rest, counter, hc, v, hv => by
    unfold countdownValues at hv
    by_cases heq : d = R
    · have hcnt : entryCount R ((d, off) :: rest) = entryCount R rest + 1 := by
        simp [entryCount, List.countP_cons, heq]
      rw [hcnt] at hc
      have hne : ¬ counter = 0 := by omega
      rw [if_pos (le_of_eq heq), if_pos heq, if_neg hne] at hv
      rcases List.mem_cons.mp hv with rfl | hv
      · omega
      · by_cases hz : counter - 1 = 0
        · rw [if_pos hz] at hv
          simp at hv
        · rw [if_neg hz] at hv
          exact countdownValues_pos R rest (counter - 1) (by omega) v hv
    · have hcnt : entryCount R ((d, off) :: rest) = entryCount R rest := by
        simp [entryCount, List.countP_cons, heq]
      rw [hcnt] at hc
      by_cases hz : counter = 0
      · simp [heq, hz] at hv
      · have hv' : v ∈ countdownValues R rest counter := by
          by_cases hle : d ≤ R
          · simpa [heq, hz, hle] using hv
          · simpa [heq, hz, hle] using hv
        exact countdownValues_pos R rest counter hc v hv'

/-- C21, the claim at the origin `(2147483647, 0)` with `m = 2`, `R = 2`,
nothing present and overflow checks: the last group with distance 2 is at position
2, and the loop examines two entries, the ones at the positions 0 and 1, and panics
at the addition `offset.x + 1` in the second. -/
theorem query_examines_prefix_at_edge :
    2 ≤ 2 ∧ lastGroupPos (grouped_offsets 2) 2 = some 2 ∧ (GROUPS 2)[2]? = some 1 ∧
      (queryLoop true 2 edgeOrigin (fun _ => false) (OFFSETS 2) [] 1).examined = 2 ∧
      (queryLoop true 2 edgeOrigin (fun _ => false) (OFFSETS 2) [] 1).result =
        .error .addOverflow ∧
      (queryLoop true 2 edgeOrigin (fun _ => false) (OFFSETS 2) [] 1).examined ≠ 2 + 1 := by
  have h1 : (queryLoop true 2 edgeOrigin (fun _ => false) (OFFSETS 2) [] 1).examined = 2 := rfl
  refine ⟨by decide, by decide, by decide, h1, rfl, ?_⟩
  rw [h1]
  decide

/-- C21, amended: for `R ≤ m`, when overflow checks are off or the square of
radius `R` around the origin lies within the `i32` coordinates, the loop examines
the entries at the positions `0` to `j`, where `j` is the position of the last group
with distance `R`, and no entry after it: it examines `j + 1` entries, and whatever
replaces the entries after position `j`, the loop returns the same list after the
same number of entries.  At an entry with a distance greater than `R` an iteration
leaves `chunks` and `counter` as they are, at every origin. -/
theorem query_examines_prefix (overflowChecks : Bool) (m R : Nat) (hR : R ≤ m)
    (origin : ChunkPosition) (isPresent : ChunkPosition → Bool)
    (hfit : overflowChecks = false ∨ InRange origin R) :
    (∃ j c, lastGroupPos (grouped_offsets m) R = some j ∧ (GROUPS m)[R]? = some c ∧
        (queryLoop overflowChecks R origin isPresent (OFFSETS m) [] c).examined = j + 1 ∧
        ∀ tail, queryLoop overflowChecks R origin isPresent
            ((OFFSETS m).take (j + 1) ++ tail) [] c =
          queryLoop overflowChecks R origin isPresent (OFFSETS m) [] c) ∧
      ∀ (d : Nat) (off : List (Int × Int)) (rest : List (Nat × List (Int × Int)))
        (chunks : List ChunkPosition) (counter : Nat), R < d →
        (queryLoop overflowChecks R origin isPresent ((d, off) :: rest) chunks counter).result =
            (if counter = 0 then .ok chunks
              else (queryLoop overflowChecks R origin isPresent rest chunks counter).result) ∧
          (queryLoop overflowChecks R origin isPresent ((d, off) :: rest) chunks
              counter).examined =
            (if counter = 0 then 1
              else (queryLoop overflowChecks R origin isPresent rest chunks counter).examined
                + 1) := by
  constructor
  · obtain ⟨j, hj, hex⟩ := queryLoop_examined overflowChecks R origin isPresent
      (grouped_offsets m) [] (groupCount_pos hR) (noPanic_OFFSETS hfit)
    have hex' : (queryLoop overflowChecks R origin isPresent (OFFSETS m) []
        (groupCount (grouped_offsets m) R)).examined = j + 1 := hex
    refine ⟨j, _, hj, GROUPS_getElem? hR, hex', ?_⟩
    intro tail
    have h := queryLoop_take_examined overflowChecks R origin isPresent tail (OFFSETS m) []
      (by rw [entryCount_OFFSETS]; exact groupCount_pos hR)
    rw [entryCount_OFFSETS, hex'] at h
    exact h
  · intro d off rest chunks counter hd
    rw [queryLoop, if_neg (by omega)]
    by_cases hz : counter = 0
    · simp [hz]
    · simp [hz]

theorem query_examines_prefix_witness :
    (1 ≤ 2 ∧ (true = false ∨ InRange tenTen 1)) ∧
      ((∃ j c, lastGroupPos (grouped_offsets 2) 1 = some j ∧ (GROUPS 2)[1]? = some c ∧
          (queryLoop true 1 tenTen (fun _ => false) (OFFSETS 2) [] c).examined = j + 1 ∧
          ∀ tail, queryLoop true 1 tenTen (fun _ => false)
              ((OFFSETS 2).take (j + 1) ++ tail) [] c =
            queryLoop true 1 tenTen (fun _ => false) (OFFSETS 2) [] c) ∧
        ∀ (d : Nat) (off : List (Int × Int)) (rest : List (Nat × List (Int × Int)))
          (chunks : List ChunkPosition) (counter : Nat), 1 < d →
          (queryLoop true 1 tenTen (fun _ => false) ((d, off) :: rest) chunks counter).result =
              (if counter = 0 then .ok chunks
                else (queryLoop true 1 tenTen (fun _ => false) rest chunks counter).result) ∧
            (queryLoop true 1 tenTen (fun _ => false) ((d, off) :: rest) chunks
                counter).examined =
              (if counter = 0 then 1
                else (queryLoop true 1 tenTen (fun _ => false) rest chunks counter).examined
                  + 1)) :=
  ⟨⟨by decide, Or.inr (by decide)⟩,
    query_examines_prefix true 2 1 (by decide) tenTen (fun _ => false) (Or.inr (by decide))⟩

/-- C22: for `R ≤ m` the index `R` is within `GROUPS` and `GROUPS[R]` is at
least 1; every value of the counter at a `counter -= 1` of the query is at least
1, and the query never stops with an underflow of the counter, at any origin, with
overflow checks or without them. -/
theorem countdown_no_underflow (m R : Nat) (hR : R ≤ m) :
    R < (GROUPS m).length ∧
      (∃ c, (GROUPS m)[R]? = some c ∧ 1 ≤ c ∧
        ∀ v ∈ countdownValues R (OFFSETS m) c, 1 ≤ v) ∧
      ∀ (overflowChecks : Bool) (origin : ChunkPosition) (isPresent : ChunkPosition → Bool),
        get_chunks_to_load overflowChecks m R origin isPresent ≠ .error .counterUnderflow := by
  refine ⟨?_, ⟨_, GROUPS_getElem? hR, groupCount_pos hR, ?_⟩, ?_⟩
  · have := (countsOk_groupLoop m).1
    unfold GROUPS distance_group_counts
    omega
  · exact countdownValues_pos R (OFFSETS m) _ (by rw [entryCount_OFFSETS])
  · intro overflowChecks origin isPresent h
    unfold get_chunks_to_load at h
    rw [if_pos hR, GROUPS_getElem? hR] at h
    simp only at h
    rcases queryLoop_result_cases overflowChecks R origin isPresent (OFFSETS m) []
      (groupCount (grouped_offsets m) R) (by rw [entryCount_OFFSETS]) with ⟨cs, hc⟩ | hc
    · rw [hc] at h
      cases h
    · rw [hc] at h
      cases h

theorem countdown_no_underflow_witness :
    2 ≤ 2 ∧
      (2 < (GROUPS 2).length ∧
        (∃ c, (GROUPS 2)[2]? = some c ∧ 1 ≤ c ∧
          ∀ v ∈ countdownValues 2 (OFFSETS 2) c, 1 ≤ v) ∧
        ∀ (overflowChecks : Bool) (origin : ChunkPosition) (isPresent : ChunkPosition → Bool),
          get_chunks_to_load overflowChecks 2 2 origin isPresent ≠ .error .counterUnderflow) :=
  ⟨by decide, countdown_no_underflow 2 2 (by decide)⟩

end ChunkSendOrder

namespace HashAlgorhitm

/-! ## The hash search -/

theorem foldl_max_ge (l : List Int) :
    ∀ (mx : Int), mx ≤ l.foldl Max.max mx ∧ (∀ h ∈ l, h ≤ l.foldl Max.max mx) ∧
      (l.foldl Max.max mx = mx ∨ l.foldl Max.max mx ∈ l) := by
  induction l with
  | nil => intro mx; simp
  | cons a l ih =>
    intro mx
    obtain ⟨h1, h2, h3⟩ := ih (Max.max mx a)
    rw [List.foldl_cons]
    refine ⟨le_trans (le_max_left _ _) h1, ?_, ?_⟩
    · intro h hh
      rcases List.mem_cons.mp hh with rfl | hh
      · exact le_trans (le_max_right _ _) h1
      · exact h2 h hh
    · rcases h3 with h3 | h3
      · rcases max_choice mx a with hc | hc
        · left; rw [h3, hc]
        · right; rw [h3, hc]; exact List.mem_cons_self _ _
      · right; exact List.mem_cons_of_mem _ h3

theorem testAlgorhitmLoop_eq (algo : String → Int) :
    ∀ (input : List String) (hashes : List Int) (mx : Int),
      (¬ (hashes ++ input.map algo).Nodup → hashes.Nodup →
        testAlgorhitmLoop algo input hashes mx = -1) ∧
      ((hashes ++ input.map algo).Nodup →
        testAlgorhitmLoop algo input hashes mx = (input.map algo).foldl Max.max mx)
  | [], hashes, mx => by
    rw [List.map_nil, List.append_nil]
    exact ⟨fun h1 h2 => absurd h2 h1, fun _ => rfl⟩
  | str :: input, hashes, mx => by
    have ih := testAlgorhitmLoop_eq algo input (hashes ++ [algo str]) (Max.max mx (algo str))
    have hassoc : hashes ++ [algo str] ++ input.map algo =
        hashes ++ (str :: input).map algo := by simp
    rw [hassoc] at ih
    unfold testAlgorhitmLoop
    simp only
    by_cases hmem : algo str ∈ hashes
    · rw [if_pos hmem]
      refine ⟨fun _ _ => rfl, ?_⟩
      intro hnd
      exfalso
      rw [List.nodup_append] at hnd
      exact hnd.2.2 hmem (by simp)
    · rw [if_neg hmem]
      refine ⟨fun h1 h2 => ih.1 h1 ?_, fun h => by rw [ih.2 h]; rfl⟩
      rw [List.nodup_append]
      refine ⟨h2, List.nodup_singleton _, ?_⟩
      intro x hx hx'
      rw [List.mem_singleton] at hx'
      exact hmem (hx' ▸ hx)

/-! ## A negative hash of `rotXorShift15Factor255` -/

theorem ldiff_low : Nat.ldiff 65535 1788215295 = 0 := by
  apply Nat.eq_of_testBit_eq
  intro i
  unfold Nat.ldiff
  rw [Nat.testBit_bitwise (by rfl), Nat.zero_testBit]
  by_cases h : i < 16
  · interval_cases i <;> decide
  · have : Nat.testBit 65535 i = false :=
      Nat.testBit_lt_two_pow (lt_of_lt_of_le (by decide : 65535 < 2 ^ 16)
        (Nat.pow_le_pow_right (by decide) (by omega)))
    rw [this]
    rfl

theorem rotateLeft_76500 : rotateLeft 76500 15 = -27286 := by
  have h1 : jsShiftLeft 76500 15 = -1788215296 := by decide
  have h2 : jsAnd (-1788215296) 65535 = 0 := by
    have h : jsAnd (-1788215296) 65535 = ((Nat.ldiff 65535 1788215295 : Nat) : Int) := by rfl
    rw [h, ldiff_low]
    rfl
  unfold rotateLeft
  simp only [h1, h2]
  decide

theorem rotXorShiftJs_pair (i factor : Nat) (str : String) (x y : Int)
    (h : str.data.map charCodeAt0 = [x, y]) :
    rotXorShiftJs i factor str =
      jsXor (rotateLeft (jsXor (rotateLeft 0 i) (x * (factor : Int))) i) (y * (factor : Int)) := by
  unfold rotXorShiftJs
  rw [h]
  rfl

theorem rotXorShiftJs_negative : rotXorShiftJs 15 255 "ĬĬ" = -81986 := by
  have hd : "ĬĬ".data.map charCodeAt0 = [300, 300] := by decide
  have h0 : jsXor (rotateLeft 0 15) (300 * ((255 : Nat) : Int)) = 76500 := by decide
  rw [rotXorShiftJs_pair 15 255 "ĬĬ" 300 300 hd, h0, rotateLeft_76500]
  decide

/-- C18, the documented return value (`-1` if it has duplicates or the highest
hash) against the code, which starts the maximum at `0`: for the hash function that
is always `-5` and the list with the one entry `a`, no two entries share a hash and
the highest hash is `-5`, but `testAlgorhitm` returns `0`; the same happens with
the algorithm `rotXorShift15Factor255` of the file on the string of two characters
with the code 300, whose hash is `-81986`. -/
theorem testAlgorhitm_negative_hash :
    ((["a"] : List String) ≠ [] ∧ ((["a"] : List String).map (fun _ => (-5 : Int))).Nodup ∧
        testAlgorhitm (fun _ => -5) ["a"] = 0 ∧
        testAlgorhitm (fun _ => -5) ["a"] ∉ (["a"] : List String).map (fun _ => (-5 : Int))) ∧
      (rotXorShiftJs 15 255 "ĬĬ" = -81986 ∧
        ((["ĬĬ"] : List String).map (rotXorShiftJs 15 255)).Nodup ∧
        testAlgorhitm (rotXorShiftJs 15 255) ["ĬĬ"] = 0 ∧
        testAlgorhitm (rotXorShiftJs 15 255) ["ĬĬ"] ∉
          (["ĬĬ"] : List String).map (rotXorShiftJs 15 255)) := by
  have h : rotXorShiftJs 15 255 "ĬĬ" = -81986 := rotXorShiftJs_negative
  have ht : testAlgorhitm (rotXorShiftJs 15 255) ["ĬĬ"] = 0 := by
    simp only [testAlgorhitm, testAlgorhitmLoop, h]
    decide
  refine ⟨by decide, h, by simp, ht, ?_⟩
  rw [ht, List.map_singleton, h]
  decide

/-- What the comment of `testAlgorhitm` says, where the code keeps to it: for a
hash function without negative values on the entries of a non-empty list,
`testAlgorhitm` returns `-1` when two entries have the same hash, and otherwise
the highest hash among the entries. -/
theorem testAlgorhitm_correct (algo : String → Int) (input : List String)
    (hne : input ≠ []) (hpos : ∀ s ∈ input, 0 ≤ algo s) :
    (¬ (input.map algo).Nodup → testAlgorhitm algo input = -1) ∧
      ((input.map algo).Nodup →
        testAlgorhitm algo input ∈ input.map algo ∧
          ∀ h ∈ input.map algo, h ≤ testAlgorhitm algo input) := by
  have hloop := testAlgorhitmLoop_eq algo input [] 0
  simp only [List.nil_append] at hloop
  refine ⟨fun h => hloop.1 h List.nodup_nil, ?_⟩
  intro hnd
  unfold testAlgorhitm
  rw [hloop.2 hnd]
  obtain ⟨h1, h2, h3⟩ := foldl_max_ge (input.map algo) 0
  refine ⟨?_, h2⟩
  rcases h3 with h3 | h3
  · obtain ⟨s, hs⟩ := List.exists_mem_of_ne_nil _ hne
    have hle := h2 (algo s) (List.mem_map_of_mem _ hs)
    rw [h3] at hle ⊢
    have : algo s = 0 := le_antisymm hle (hpos s hs)
    rw [← this]
    exact List.mem_map_of_mem _ hs
  · exact h3

theorem testAlgorhitm_correct_witness :
    ((["a", "bc"] : List String) ≠ [] ∧
        ∀ s ∈ (["a", "bc"] : List String), 0 ≤ (fun s : String => (s.length : Int)) s) ∧
      ((¬ ((["a", "bc"] : List String).map (fun s : String => (s.length : Int))).Nodup →
          testAlgorhitm (fun s : String => (s.length : Int)) ["a", "bc"] = -1) ∧
        (((["a", "bc"] : List String).map (fun s : String => (s.length : Int))).Nodup →
          testAlgorhitm (fun s : String => (s.length : Int)) ["a", "bc"] ∈
              (["a", "bc"] : List String).map (fun s : String => (s.length : Int)) ∧
            ∀ h ∈ (["a", "bc"] : List String).map (fun s : String => (s.length : Int)),
              h ≤ testAlgorhitm (fun s : String => (s.length : Int)) ["a", "bc"])) :=
  ⟨⟨by decide, fun s _ => Int.natCast_nonneg _⟩,
    testAlgorhitm_correct (fun s : String => (s.length : Int)) ["a", "bc"] (by decide)
      (fun s _ => Int.natCast_nonneg _)⟩

/-! ## The rotate-xor hashes -/

theorem toInt32_of_range {x : Int} (h1 : -2147483648 ≤ x) (h2 : x < 2147483648) :
    toInt32 x = x := by
  unfold toInt32
  omega

/-- Function `rotateLeft` on a 16-bit value: the high and the low part of the
shifted value, added. -/
theorem rotateLeft_eq_add (n i : Nat) (hn : n < 65536) (hi : i ≤ 15) :
    rotateLeft (n : Int) i = ((n * 2 ^ i % 65536 + n * 2 ^ i / 65536 : Nat) : Int) := by
  have hP1 : 2 ^ i ≤ 32768 :=
    calc 2 ^ i ≤ 2 ^ 15 := Nat.pow_le_pow_right (by norm_num) hi
      _ = 32768 := by norm_num
  have hN : n * 2 ^ i ≤ 2147450880 :=
    calc n * 2 ^ i ≤ 65535 * 32768 := Nat.mul_le_mul (by omega) hP1
      _ = 2147450880 := by norm_num
  generalize hNdef : n * 2 ^ i = N at hN ⊢
  have e1 : toInt32 (n : Int) = n := toInt32_of_range (by omega) (by omega)
  have e2 : toInt32 ((n : Int) * 2 ^ (i % 32)) = (N : Int) := by
    rw [Nat.mod_eq_of_lt (by omega : i < 32)]
    have : (n : Int) * 2 ^ i = (N : Int) := by rw [← hNdef]; push_cast; rfl
    rw [this]
    exact toInt32_of_range (by omega) (by omega)
  have e3 : toInt32 (N : Int) = N := toInt32_of_range (by omega) (by omega)
  have e4 : toInt32 65535 = 65535 := by decide
  have e5 : Int.land (N : Int) 65535 = ((N % 65536 : Nat) : Int) := by
    have h : N &&& 65535 = N % 65536 := Nat.and_pow_two_sub_one_eq_mod N 16
    rw [← h]
    rfl
  have e6 : toInt32 ((N : Int) - ((N % 65536 : Nat) : Int)) =
      (N : Int) - ((N % 65536 : Nat) : Int) := by
    apply toInt32_of_range <;> omega
  unfold rotateLeft jsShiftLeft jsAnd jsShiftRight
  simp only [e1, e2, e3, e4, e5, e6, Int.shiftRight_eq_div_pow]
  push_cast
  omega

theorem u16RotateLeft_eq_add (n i : Nat) (hn : n < 65536) (hi : i ≤ 15) :
    u16RotateLeft n i = n * 2 ^ i % 65536 + n * 2 ^ i / 65536 := by
  have hpow : 2 ^ i * 2 ^ (16 - i) = 65536 := by
    rw [← pow_add, Nat.add_sub_cancel' (by omega : i ≤ 16)]
    norm_num
  have hP0 : 0 < 2 ^ i := Nat.pow_pos (by norm_num)
  have h1 : n / 2 ^ (16 - i) < 2 ^ i := by
    apply Nat.div_lt_of_lt_mul
    rw [Nat.mul_comm, hpow]
    exact hn
  have h2 : n * 2 ^ i % 65536 = 2 ^ i * (n % 2 ^ (16 - i)) := by
    rw [← hpow, Nat.mul_comm n, Nat.mul_mod_mul_left]
  have h3 : n * 2 ^ i / 65536 = n / 2 ^ (16 - i) := by
    rw [← hpow, Nat.mul_comm n, Nat.mul_div_mul_left _ _ hP0]
  unfold u16RotateLeft
  rw [Nat.mod_eq_of_lt (by omega : i < 16), Nat.mod_eq_of_lt hn, h3, h2]
  exact (Nat.mul_add_lt_is_or h1 _).symm

theorem u16RotateLeft_lt (n i : Nat) (hn : n < 65536) : u16RotateLeft n i < 65536 := by
  unfold u16RotateLeft
  have h1 : n * 2 ^ (i % 16) % 65536 < 2 ^ 16 := Nat.mod_lt _ (by norm_num)
  have h2 : n % 65536 / 2 ^ (16 - i % 16) < 2 ^ 16 :=
    lt_of_le_of_lt (Nat.div_le_self _ _) (lt_of_le_of_lt (Nat.mod_le _ _) hn)
  exact Nat.or_lt_two_pow h1 h2

theorem rotateLeft_eq_u16RotateLeft (n i : Nat) (hn : n < 65536) (hi : i ≤ 15) :
    rotateLeft (n : Int) i = ((u16RotateLeft n i : Nat) : Int) := by
  rw [rotateLeft_eq_add n i hn hi, u16RotateLeft_eq_add n i hn hi]

theorem utf8EncodeChar_ascii (c : Char) (h : c.toNat < 128) :
    (String.utf8EncodeChar c).map UInt8.toNat = [c.toNat] := by
  have hlt : c.val.toNat < 128 := h
  have hv : c.val ≤ 0x7f := by
    rw [UInt32.le_def, BitVec.le_def]
    simpa [UInt32.toNat] using (by omega : c.val.toNat ≤ 127)
  unfold String.utf8EncodeChar
  simp only [hv, if_true, List.map_cons, List.map_nil]
  simp [UInt32.toUInt8, Nat.toUInt8, UInt8.ofNat, UInt8.toNat, Char.toNat]
  omega

/-- One step of the two loops on a 16-bit sum and a character below 128. -/
theorem hash_step (i factor acc : Nat) (c : Char) (hi : i ≤ 15) (hfactor : factor ≤ 255)
    (hacc : acc < 65536) (hc : c.toNat < 128) :
    jsXor (rotateLeft (acc : Int) i) (charCodeAt0 c * (factor : Int)) =
        ((u16RotateLeft acc i ^^^ (c.toNat * factor) % 65536 : Nat) : Int) ∧
      u16RotateLeft acc i ^^^ (c.toNat * factor) % 65536 < 65536 := by
  have hprod : c.toNat * factor ≤ 32385 :=
    calc c.toNat * factor ≤ 127 * 255 := Nat.mul_le_mul (by omega) hfactor
      _ = 32385 := by norm_num
  have hrot := u16RotateLeft_lt acc i hacc
  have hmod : (c.toNat * factor) % 65536 = c.toNat * factor := Nat.mod_eq_of_lt (by omega)
  have hchar : charCodeAt0 c * (factor : Int) = ((c.toNat * factor : Nat) : Int) := by
    unfold charCodeAt0
    rw [if_pos (by omega)]
    push_cast
    rfl
  refine ⟨?_, ?_⟩
  · rw [rotateLeft_eq_u16RotateLeft acc i hacc hi, hchar, hmod]
    unfold jsXor
    rw [toInt32_of_range (by omega) (by omega), toInt32_of_range (by omega) (by omega)]
    rfl
  · rw [hmod]
    exact Nat.xor_lt_two_pow (n := 16) hrot (by omega)

theorem hash_fold (i factor : Nat) (hi : i ≤ 15) (hfactor : factor ≤ 255) :
    ∀ (l : List Char) (acc : Nat), (∀ c ∈ l, c.toNat < 128) → acc < 65536 →
      (l.map charCodeAt0).foldl
          (fun sum char => jsXor (rotateLeft sum i) (char * (factor : Int))) (acc : Int) =
        ((((l.flatMap String.utf8EncodeChar).map UInt8.toNat).foldl
          (fun sum c => (u16RotateLeft sum i) ^^^ ((c * factor) % 65536)) acc : Nat) : Int) ∧
      ((l.flatMap String.utf8EncodeChar).map UInt8.toNat).foldl
          (fun sum c => (u16RotateLeft sum i) ^^^ ((c * factor) % 65536)) acc < 65536
  | [], acc, _, hacc => by
    simp only [List.map_nil, List.foldl_nil, List.flatMap_nil]
    exact ⟨trivial, hacc⟩
  | c :: l, acc, hl, hacc => by
    have hc := hl c (List.mem_cons_self _ _)
    obtain ⟨hstep, hlt⟩ := hash_step i factor acc c hi hfactor hacc hc
    have ih := hash_fold i factor hi hfactor l _
      (fun c' hc' => hl c' (List.mem_cons_of_mem _ hc')) hlt
    rw [List.map_cons, List.foldl_cons, List.flatMap_cons, List.map_append,
      utf8EncodeChar_ascii c hc, List.foldl_append, List.foldl_cons, List.foldl_nil, hstep]
    exact ih

/-- C23: for a string of characters with codes below 128, a shift `i` in
`1..15` and a factor in `1..255`, the JavaScript hash equals the value the emitted
Rust body computes on `u16`, and it lies in `[0, 65535]`; `rotateLeft(n, i)` is
the 16-bit left rotation of `n` for `0 ≤ n < 65536`. -/
theorem rotXorShift_js_eq_rs (i factor : Nat) (str : String) (hi : 1 ≤ i ∧ i ≤ 15)
    (hfactor : 1 ≤ factor ∧ factor ≤ 255) (hstr : ∀ c ∈ str.data, c.toNat < 128) :
    rotXorShiftJs i factor str = ((rotXorShiftRs i factor str : Nat) : Int) ∧
      0 ≤ rotXorShiftJs i factor str ∧ rotXorShiftJs i factor str ≤ 65535 ∧
      ∀ n : Nat, n < 65536 →
        rotateLeft (n : Int) i = ((u16RotateLeft n i : Nat) : Int) ∧
          u16RotateLeft n i < 65536 := by
  obtain ⟨heq, hlt⟩ := hash_fold i factor hi.2 hfactor.2 str.data 0 hstr (by norm_num)
  have heq' : rotXorShiftJs i factor str = ((rotXorShiftRs i factor str : Nat) : Int) := heq
  have hlt' : rotXorShiftRs i factor str < 65536 := hlt
  refine ⟨heq', ?_, ?_, ?_⟩
  · rw [heq']; omega
  · rw [heq']; omega
  · intro n hn
    exact ⟨rotateLeft_eq_u16RotateLeft n i hn hi.2, u16RotateLeft_lt n i hn⟩

theorem rotXorShift_js_eq_rs_witness :
    ((1 ≤ 3 ∧ 3 ≤ 15) ∧ (1 ≤ 7 ∧ 7 ≤ 255) ∧ ∀ c ∈ "ab".data, c.toNat < 128) ∧
      (rotXorShiftJs 3 7 "ab" = ((rotXorShiftRs 3 7 "ab" : Nat) : Int) ∧
        0 ≤ rotXorShiftJs 3 7 "ab" ∧ rotXorShiftJs 3 7 "ab" ≤ 65535 ∧
        ∀ n : Nat, n < 65536 →
          rotateLeft (n : Int) 3 = ((u16RotateLeft n 3 : Nat) : Int) ∧
            u16RotateLeft n 3 < 65536) :=
  ⟨⟨by decide, by decide, by decide⟩,
    rotXorShift_js_eq_rs 3 7 "ab" (by decide) (by decide) (by decide)⟩

end HashAlgorhitm

namespace GeneratorLib

/-! ## Writing to a finished generator -/

/-- Method `write` on a finished generator throws and changes nothing. -/
theorem write_finished :
    ∀ (sh : Shape) (g : Gen sh) (text : String), g.finished = true →
      write sh g text = (g, true)
  | _, .rustCode finished written, text, h => by
    simp only [Gen.finished] at h
    simp [write, h]
  | _, .function finished params returnType generator, text, h => by
    simp only [Gen.finished] at h
    simp [write, h]
  | _, .codeBlock finished generator, text, h => by
    simp only [Gen.finished] at h
    simp [write, h]
  | _, .inlined finished firstLine generator, text, h => by
    simp only [Gen.finished] at h
    simp [write, h]
  | _, .matchGen finished generator, text, h => by
    simp only [Gen.finished] at h
    simp [write, h]
  | _, .enumGen finished generator, text, h => by
    simp only [Gen.finished] at h
    simp [write, h]
  | _, .implGen finished generator, text, h => by
    simp only [Gen.finished] at h
    simp [write, h]

/-- Method `newLine` on a finished generator throws and changes nothing. -/
theorem newLine_finished (sh : Shape) (g : Gen sh) (h : g.finished = true) :
    newLine sh g = (g, true) :=
  write_finished sh g "\n" h

/-- C17, at a finished `FunctionGenerator` and a finished `CodeBlockGenerator`
over a file: `finish()` has set `finished`; `write` throws and leaves the file
text unchanged, but `indent()` does not throw and appends two spaces to the file
text, and `writeLine("x")`, `commentLine("x")` and `documentLine("x")` throw only
after they have appended two spaces. -/
theorem indent_after_finish :
    finishedFunctionGenerator.finished = true ∧
      finishedFunctionGenerator.fileText = "fn f() \x7b\n\x7d\n" ∧
      write _ finishedFunctionGenerator "x" = (finishedFunctionGenerator, true) ∧
      (indent _ finishedFunctionGenerator 0).2 = false ∧
      (indent _ finishedFunctionGenerator 0).1.fileText = "fn f() \x7b\n\x7d\n  " ∧
      (writeLine _ ["x"] finishedFunctionGenerator).2 = true ∧
      (writeLine _ ["x"] finishedFunctionGenerator).1.fileText = "fn f() \x7b\n\x7d\n  " ∧
      (commentLine _ ["x"] finishedFunctionGenerator).2 = true ∧
      (commentLine _ ["x"] finishedFunctionGenerator).1.fileText = "fn f() \x7b\n\x7d\n  " ∧
      (documentLine _ ["x"] finishedFunctionGenerator).2 = true ∧
      (documentLine _ ["x"] finishedFunctionGenerator).1.fileText = "fn f() \x7b\n\x7d\n  " ∧
      finishedCodeBlockGenerator.finished = true ∧
      finishedCodeBlockGenerator.fileText = "\x7b\n\x7d\n" ∧
      (indent _ finishedCodeBlockGenerator 0).2 = false ∧
      (indent _ finishedCodeBlockGenerator 0).1.fileText = "\x7b\n\x7d\n  " := by
  refine ⟨rfl, rfl, write_finished _ _ _ rfl, rfl, rfl, rfl, rfl, rfl, rfl, rfl, rfl, rfl, rfl,
    rfl, rfl⟩

end GeneratorLib
